import Mathlib

/-!
Shallow embedding of the vn-market-service caching core, translated from the
Python source under `app/`:

* dates are day numbers (the standard civil-calendar day count, so concrete
  ISO dates such as 2025-10-01 are genuine values);
* floats are modelled as rationals;
* a SQLite row of `historical_records` is a `Row`; since the table has primary
  key (symbol, asset_type, date), the table itself is the partial map
  `Store := String → String → ℕ → Option Row`, and `INSERT OR REPLACE` is a
  pointwise update;
* a Python record dict is a `RawRecord` whose absent keys are `none`.

Each claim is settled by one theorem near the end of the file.
-/

namespace VnMarket

/-- Day number of a civil date (days since 0000-03-01 in the proleptic
Gregorian calendar); `daysFromCivil 1970 1 1 = 719468`. -/
def daysFromCivil (y m d : ℕ) : ℕ :=
  let y := if m ≤ 2 then y - 1 else y
  let era := y / 400
  let yoe := y % 400
  let doy := (153 * (if 2 < m then m - 3 else m + 9) + 2) / 5 + (d - 1)
  let doe := yoe * 365 + yoe / 4 - yoe / 100 + doy
  era * 146097 + doe

/-- Python `date.weekday()`: Monday = 0 … Sunday = 6. -/
def pyWeekday (n : ℕ) : ℕ := (n + 2) % 7

/-- All day numbers from `a` to `b` inclusive, ascending (the enumeration the
Python code builds with a `while current <= end` loop). -/
def dateRange (a b : ℕ) : List ℕ := List.range' a (b + 1 - a)

/-- A Python record dict: absent keys are `none`.  Field `open` is called
`open_` because `open` is a Lean keyword. -/
structure RawRecord where
  symbol : Option String := none
  date : Option ℕ := none
  open_ : Option ℚ := none
  high : Option ℚ := none
  low : Option ℚ := none
  close : Option ℚ := none
  adjclose : Option ℚ := none
  volume : Option ℚ := none
  nav : Option ℚ := none
  buy_price : Option ℚ := none
  sell_price : Option ℚ := none
deriving DecidableEq, Repr

/-- A row of the `historical_records` table (the non-key columns).
`dataJson = none` models `data_json = '{}'` (the placeholder marker);
`dataJson = some rec` models a serialized real record. -/
structure Row where
  open_ : Option ℚ := none
  high : Option ℚ := none
  low : Option ℚ := none
  close : Option ℚ := none
  adjclose : Option ℚ := none
  volume : Option ℚ := none
  nav : Option ℚ := none
  buy_price : Option ℚ := none
  sell_price : Option ℚ := none
  dataJson : Option RawRecord := none
deriving DecidableEq, Repr

/-- The `historical_records` table as a partial map over its primary key
(symbol, asset_type, date). -/
def Store : Type := String → String → ℕ → Option Row

/-- The empty table. -/
def emptyStore : Store := fun _ _ _ => none

/-- `INSERT OR REPLACE` of one row at a primary key. -/
def upsertRow (s : Store) (symbol assetType : String) (d : ℕ) (row : Row) : Store :=
  fun sym at_ d' =>
    if sym = symbol ∧ at_ = assetType ∧ d' = d then some row else s sym at_ d'

/-- The row written for a record by `store_historical_records`: each numeric
column from the record's field (NULL when absent), `data_json` the serialized
record. -/
def rowOfRecord (rec : RawRecord) : Row :=
  { open_ := rec.open_, high := rec.high, low := rec.low, close := rec.close,
    adjclose := rec.adjclose, volume := rec.volume, nav := rec.nav,
    buy_price := rec.buy_price, sell_price := rec.sell_price,
    dataJson := some rec }

/-- `BaseHistoricalCacheManager.store_historical_records`: records without a
date are skipped; the rest are upserted in order.  Returns the new store and
the stored count. -/
def store_historical_records (s : Store) (symbol assetType : String)
    (records : List RawRecord) : Store × ℕ :=
  records.foldl
    (fun acc rec =>
      match rec.date with
      | none => acc
      | some d => (upsertRow acc.1 symbol assetType d (rowOfRecord rec), acc.2 + 1))
    (s, 0)

/-- `BaseHistoricalCacheManager.get_cached_dates`: the distinct dates present
for the key in `[a, b]`, ascending. -/
def get_cached_dates (s : Store) (symbol assetType : String) (a b : ℕ) : List ℕ :=
  (dateRange a b).filter (fun d => (s symbol assetType d).isSome)

/-- The SQL realness filter of `get_cached_records`:
`open,high,low,close` all non-NULL and not all four equal to 0. -/
def isRealRow (r : Row) : Bool :=
  r.open_.isSome && r.high.isSome && r.low.isSome && r.close.isSome &&
    !(r.open_ == some 0 && r.high == some 0 && r.low == some 0 && r.close == some 0)

/-- The record dict built by `get_cached_records` from a row: NULL prices
default to `nav` (itself defaulting to 0), volume/buy/sell default to 0.
The dict has no `symbol` key. -/
def normalizeRow (d : ℕ) (r : Row) : RawRecord :=
  let nav := r.nav.getD 0
  { symbol := none, date := some d,
    open_ := some (r.open_.getD nav), high := some (r.high.getD nav),
    low := some (r.low.getD nav), close := some (r.close.getD nav),
    adjclose := some (r.adjclose.getD nav), volume := some (r.volume.getD 0),
    nav := some nav,
    buy_price := some (r.buy_price.getD 0), sell_price := some (r.sell_price.getD 0) }

/-- `BaseHistoricalCacheManager.get_cached_records`: rows for the key with
date in `[a, b]` passing the realness filter, ordered by date ascending,
normalized. -/
def get_cached_records (s : Store) (symbol assetType : String) (a b : ℕ) :
    List RawRecord :=
  (dateRange a b).filterMap (fun d =>
    match s symbol assetType d with
    | none => none
    | some r => if isRealRow r then some (normalizeRow d r) else none)

/-- The coalescing loop of `calculate_missing_date_ranges`: `rs, re` are the
current range, the list holds the remaining sorted missing dates; a date at
distance exactly 1 extends the range, otherwise the range is emitted. -/
def coalesceRanges (rs re : ℕ) : List ℕ → List (ℕ × ℕ)
  | [] => [(rs, re)]
  | d :: ds => if d = re + 1 then coalesceRanges rs d ds else (rs, re) :: coalesceRanges d d ds

/-- `BaseHistoricalCacheManager.calculate_missing_date_ranges`: enumerate
`[a, b]`, drop cached dates (the ascending enumeration minus cached equals the
sorted missing set), coalesce consecutive dates into ranges. -/
def calculate_missing_date_ranges (a b : ℕ) (cached : List ℕ) : List (ℕ × ℕ) :=
  let missingSorted := (dateRange a b).filter (fun d => d ∉ cached)
  match missingSorted with
  | [] => []
  | d :: ds => coalesceRanges d d ds

/-- The dates covered by a `(range_start, range_end)` tuple. -/
def rangeDates (p : ℕ × ℕ) : List ℕ := dateRange p.1 p.2

/-- The zero-valued placeholder row written by the legacy
`HistoricalCacheManager.mark_date_range_as_fetched` (`data_json = '{}'`). -/
def placeholderRow : Row :=
  { open_ := some 0, high := some 0, low := some 0, close := some 0,
    adjclose := some 0, volume := some 0, nav := some 0,
    buy_price := some 0, sell_price := some 0, dataJson := none }

/-- Legacy `HistoricalCacheManager.mark_date_range_as_fetched`: compute the
dates of `[a, b]` not already present for the key, then `INSERT OR REPLACE` a
zero-valued placeholder row for each of them.  Returns the new store and the
marked count. -/
def mark_date_range_as_fetched (s : Store) (symbol assetType : String) (a b : ℕ) :
    Store × ℕ :=
  let cached := get_cached_dates s symbol assetType a b
  let datesToMark := (dateRange a b).filter (fun d => d ∉ cached)
  (datesToMark.foldl (fun acc d => upsertRow acc symbol assetType d placeholderRow) s,
   datesToMark.length)

/-- A row holding at least one non-zero price (the claims' notion of a "real
record with non-zero prices"). -/
def hasNonzeroPrices (r : Row) : Bool :=
  [r.open_, r.high, r.low, r.close, r.adjclose, r.nav, r.buy_price, r.sell_price].any
    (fun o => match o with | some x => x != 0 | none => false)

/-- Python `str.upper()` on one character. -/
def upperChar (c : Char) : Char :=
  if 'a' ≤ c ∧ c ≤ 'z' then Char.ofNat (c.toNat - 32) else c

/-- Python `str.upper()` (over the character list, so it evaluates in the
kernel). -/
def pyUpper (s : String) : String := ⟨s.data.map upperChar⟩

/-- Python `str.endswith(suffix)`. -/
def pyEndsWith (s suffix : String) : Bool := suffix.data.isSuffixOf s.data

/-- `GoldClient.parse_symbol`: upper-case the symbol, accept only the two SJC
symbols, and normalize the `.C` (Chỉ) alias to the canonical storage symbol
`VN.GOLD`.  `none` models the raised `ValueError`. -/
def parse_symbol_gold (symbol : String) : Option String :=
  let u := pyUpper symbol
  if u = "VN.GOLD" ∨ u = "VN.GOLD.C"
  then some (if pyEndsWith u ".C" then "VN.GOLD" else u)
  else none

/-- `GoldClient._apply_unit_conversion`: set each record's symbol to the
requested symbol; when the requested symbol ends in `.C`, divide
`nav, open, high, low, close, adjclose, buy_price, sell_price` by 10 (fields
that are present and non-null); `volume` and `date` are untouched. -/
def apply_unit_conversion (records : List RawRecord) (symbol : String) :
    List RawRecord :=
  records.map (fun rec =>
    let rec1 := { rec with symbol := some symbol }
    if pyEndsWith symbol ".C" then
      { rec1 with
        nav := rec1.nav.map (fun x => x / 10),
        open_ := rec1.open_.map (fun x => x / 10),
        high := rec1.high.map (fun x => x / 10),
        low := rec1.low.map (fun x => x / 10),
        close := rec1.close.map (fun x => x / 10),
        adjclose := rec1.adjclose.map (fun x => x / 10),
        buy_price := rec1.buy_price.map (fun x => x / 10),
        sell_price := rec1.sell_price.map (fun x => x / 10) }
    else rec1)

/-- `GoldClient.get_gold_history` on the lazy-fetch path: parse the symbol
(invalid symbols give `[]`), read the cached records stored under the
canonical symbol, and apply the unit conversion for the requested symbol.
The background lazy-fetch trigger does not affect the returned records. -/
def get_gold_history (s : Store) (symbol : String) (a b : ℕ) : List RawRecord :=
  match parse_symbol_gold symbol with
  | none => []
  | some normalized =>
      apply_unit_conversion (get_cached_records s normalized "GOLD" a b) symbol

/-- The SJC record of the spec's gold fixture: 2025-10-01,
buy 80 000 000, sell 82 000 000, close = sell (the shape `_get_sjc_history`
produces: OHLC and nav equal to the price, adjclose 0, volume 0). -/
def goldSeedRecord : RawRecord :=
  { date := some (daysFromCivil 2025 10 1), nav := some 82000000,
    open_ := some 82000000, high := some 82000000, low := some 82000000,
    close := some 82000000, adjclose := some 0, volume := some 0,
    buy_price := some 80000000, sell_price := some 82000000 }

/-- A store holding only the gold fixture record under `VN.GOLD`. -/
def goldSeedStore : Store :=
  (store_historical_records emptyStore "VN.GOLD" "GOLD" [goldSeedRecord]).1

/-- The loop of `LazyFetchManager._dates_to_ranges`: `start, prev` track the
current run; a gap of more than one day emits the run (Python subtracts exact
dates, hence the integer subtraction). -/
def dates_to_ranges_go (start prev : ℕ) : List ℕ → List (ℕ × ℕ)
  | [] => [(start, prev)]
  | d :: ds =>
      if (d : ℤ) - (prev : ℤ) > 1
      then (start, prev) :: dates_to_ranges_go d d ds
      else dates_to_ranges_go start d ds

/-- `LazyFetchManager._dates_to_ranges`. -/
def dates_to_ranges : List ℕ → List (ℕ × ℕ)
  | [] => []
  | d :: ds => dates_to_ranges_go d d ds

/-- `LazyFetchManager._get_missing_date_ranges`: existing dates for the key in
`[a, b]` (placeholders included — the SQL has no realness filter), candidate
dates are the *weekdays* of `[a, b]` (`weekday() < 5` for every asset type),
missing = candidates not existing, converted to ranges. -/
def lazy_get_missing_date_ranges (s : Store) (symbol assetType : String)
    (a b : ℕ) : List (ℕ × ℕ) :=
  let existing := (dateRange a b).filter (fun d => (s symbol assetType d).isSome)
  let all_dates := (dateRange a b).filter (fun d => pyWeekday d < 5)
  let missing := all_dates.filter (fun d => d ∉ existing)
  dates_to_ranges missing

/-- The chunking loop of `LazyFetchManager._create_chunks` for one range:
`while current_start <= end: current_end = min(current_start + chunk_days - 1,
end)`, written with structural fuel (for `chunk_days ≥ 1` the loop ends within
`re + 1 - cs` iterations, so the fuel is never the reason it stops; the
source's loop would not terminate for `chunk_days = 0`, and the callers pass
3 or 14). -/
def chunkRangeGo : ℕ → ℕ → ℕ → ℕ → List (ℕ × ℕ)
  | 0, _, _, _ => []
  | fuel + 1, cs, re, k =>
      if cs ≤ re ∧ 0 < k then
        (cs, min (cs + k - 1) re) :: chunkRangeGo fuel (min (cs + k - 1) re + 1) re k
      else []

/-- One range cut into chunks of at most `k` days. -/
def chunkRange (cs re k : ℕ) : List (ℕ × ℕ) := chunkRangeGo (re + 1 - cs) cs re k

/-- `LazyFetchManager._create_chunks`: funds force 14-day chunks; each range is
cut into chunks of at most `chunk_days` days. -/
def create_chunks (ranges : List (ℕ × ℕ)) (chunk_days : ℕ) (assetType : String) :
    List (ℕ × ℕ) :=
  let chunk_days := if assetType = "FUND" then 14 else chunk_days
  ranges.flatMap (fun p => chunkRange p.1 p.2 chunk_days)

/-- The chunks a `LazyFetchManager._background_fetch_worker` fetches for a
task: recompute the missing ranges against the store, then chunk them
(3 days for gold, 14 otherwise). -/
def worker_chunks (s : Store) (symbol assetType : String) (a b : ℕ) :
    List (ℕ × ℕ) :=
  create_chunks (lazy_get_missing_date_ranges s symbol assetType a b)
    (if assetType = "GOLD" then 3 else 14) assetType

/-- `RateLimitProtector` configuration (times in the model are rationals;
`time.time()` seconds). -/
structure RLConfig where
  max_calls_per_minute : ℕ
  max_calls_per_hour : ℕ
  delay_between_calls_ms : ℚ
  enable_throttling : Bool
deriving DecidableEq

/-- `RateLimitProtector` mutable state: the two sliding-window FIFO queues
(oldest first) and the last-call timestamp (0 before any call). -/
structure RLState where
  minute_calls : List ℚ
  hour_calls : List ℚ
  last_call_time : ℚ
deriving DecidableEq

/-- `RateLimitProtector._cleanup_old_timestamps`: pop entries from the front
of each queue while they are older than the window. -/
def cleanup_old_timestamps (now : ℚ) (st : RLState) : RLState :=
  { minute_calls := st.minute_calls.dropWhile (fun x => x < now - 60),
    hour_calls := st.hour_calls.dropWhile (fun x => x < now - 3600),
    last_call_time := st.last_call_time }

/-- `RateLimitProtector.should_throttle`: disabled throttling never throttles;
otherwise clean up, then throttle when the minute window is at capacity, or
the hour window is, or a call was recorded (`last_call_time > 0`) less than
the minimum interval ago. -/
def should_throttle (cfg : RLConfig) (st : RLState) (now : ℚ) : Bool :=
  if !cfg.enable_throttling then false
  else
    let cleaned := cleanup_old_timestamps now st
    if cfg.max_calls_per_minute ≤ cleaned.minute_calls.length then true
    else if cfg.max_calls_per_hour ≤ cleaned.hour_calls.length then true
    else
      let delay_seconds := cfg.delay_between_calls_ms / 1000
      let time_since_last := now - st.last_call_time
      if st.last_call_time > 0 ∧ time_since_last < delay_seconds then true
      else false

/-- `RateLimitProtector.record_call`: append `now` to both windows, set
`last_call_time`, then clean up. -/
def record_call (st : RLState) (now : ℚ) : RLState :=
  cleanup_old_timestamps now
    { minute_calls := st.minute_calls ++ [now],
      hour_calls := st.hour_calls ++ [now],
      last_call_time := now }

/-- Lookup in a Python dict modelled as an insertion-ordered association
list. -/
def assocGet {κ α : Type} [DecidableEq κ] (l : List (κ × α)) (k : κ) : Option α :=
  (l.find? (fun p => p.1 = k)).map (fun p => p.2)

/-- Dict assignment: replace in place when the key exists, else append. -/
def assocSet {κ α : Type} [DecidableEq κ] (l : List (κ × α)) (k : κ) (v : α) :
    List (κ × α) :=
  if l.any (fun p => p.1 = k)
  then l.map (fun p => if p.1 = k then (k, v) else p)
  else l ++ [(k, v)]

/-- Dict deletion. -/
def assocRemove {κ α : Type} [DecidableEq κ] (l : List (κ × α)) (k : κ) :
    List (κ × α) :=
  l.filter (fun p => ¬(p.1 = k))

/-- `QuoteTTLManager.get_ttl_for_asset` with the default configuration:
FUND 24 h, STOCK/INDEX/GOLD 1 h, CRYPTO 15 min, everything else (and the empty
asset type) 1 h. -/
def get_ttl_for_asset (assetType : String) : ℕ :=
  let key := if assetType = "" then "DEFAULT" else pyUpper assetType
  if key = "FUND" then 86400
  else if key = "STOCK" then 3600
  else if key = "INDEX" then 3600
  else if key = "GOLD" then 3600
  else if key = "CRYPTO" then 900
  else 3600

/-- A `MemoryCache._cache` entry (value plus `created_at`/`accessed_at`). -/
structure MemEntry where
  value : RawRecord
  created_at : ℚ
  accessed_at : ℚ
deriving DecidableEq

/-- `MemoryCache` state: the `_cache` and `_ttl` dicts plus configuration.
(The hit/miss statistics counters are not modelled; they do not influence any
cache decision.) -/
structure MemoryCache where
  cache : List (String × MemEntry)
  ttl : List (String × ℚ)
  default_ttl : ℕ
  max_size : ℕ

/-- `MemoryCache._evict_lru`: sort entries by `accessed_at` and drop the
oldest tenth (at least one). -/
def evict_lru (c : MemoryCache) : MemoryCache :=
  if c.cache.isEmpty then c
  else
    let items_by_access := c.cache.mergeSort
      (fun p q => p.2.accessed_at ≤ q.2.accessed_at)
    let evict_count := max 1 (c.cache.length / 10)
    (items_by_access.take evict_count).foldl
      (fun acc p =>
        { acc with cache := assocRemove acc.cache p.1,
                   ttl := assocRemove acc.ttl p.1 })
      c

/-- `MemoryCache.get`: a present, unexpired key refreshes `accessed_at` and
returns the value; a present but expired key is removed and the read misses
(`expires_at` defaults to 0 when the `_ttl` dict has no entry). -/
def mcGet (c : MemoryCache) (key : String) (now : ℚ) :
    Option RawRecord × MemoryCache :=
  match assocGet c.cache key with
  | some entry =>
      let expires_at := (assocGet c.ttl key).getD 0
      if now < expires_at then
        (some entry.value,
         { c with cache := assocSet c.cache key { entry with accessed_at := now } })
      else
        (none,
         { c with cache := assocRemove c.cache key, ttl := assocRemove c.ttl key })
  | none => (none, c)

/-- `MemoryCache.set`: evict when at capacity, then write the entry and its
expiry `now + ttl` (the default TTL when none is passed). -/
def mcSet (c : MemoryCache) (key : String) (v : RawRecord) (ttlArg : Option ℕ)
    (now : ℚ) : MemoryCache :=
  let c := if c.max_size ≤ c.cache.length then evict_lru c else c
  let ttl_seconds := ttlArg.getD c.default_ttl
  let expires_at := now + (ttl_seconds : ℚ)
  { c with cache := assocSet c.cache key ⟨v, now, now⟩,
           ttl := assocSet c.ttl key expires_at }

/-- `QuoteCache` key `"quote:{symbol}:{asset_type}"`. -/
def quoteKey (symbol assetType : String) : String :=
  "quote:" ++ symbol ++ ":" ++ assetType

/-- `QuoteCache.set_quote`: an explicit TTL wins, otherwise the asset-specific
TTL from the TTL manager. -/
def set_quote (c : MemoryCache) (symbol assetType : String) (quote : RawRecord)
    (ttlArg : Option ℕ) (now : ℚ) : MemoryCache :=
  let ttl := match ttlArg with
    | none => some (get_ttl_for_asset assetType)
    | some t => some t
  mcSet c (quoteKey symbol assetType) quote ttl now

/-- `QuoteCache.get_quote`. -/
def get_quote (c : MemoryCache) (symbol assetType : String) (now : ℚ) :
    Option RawRecord × MemoryCache :=
  mcGet c (quoteKey symbol assetType) now

/-- The persistent `quotes` table: key (symbol, asset_type), value
(payload, expires_at). -/
def PersCache : Type := List ((String × String) × RawRecord × ℚ)

/-- `CacheManager.set_quote` (`INSERT OR REPLACE` with
`expires_at = now + ttl_seconds`). -/
def pers_set_quote (pc : PersCache) (symbol assetType : String) (q : RawRecord)
    (ttl_seconds : ℕ) (now : ℚ) : PersCache :=
  assocSet pc (symbol, assetType) (q, now + (ttl_seconds : ℚ))

/-- `CacheManager.get_quote`: returns the payload only when
`expires_at > now`. -/
def pers_get_quote (pc : PersCache) (symbol assetType : String) (now : ℚ) :
    Option RawRecord :=
  match assocGet pc (symbol, assetType) with
  | some (q, expires_at) => if expires_at > now then some q else none
  | none => none

/-- `BaseHistoricalCacheManager.get_most_recent_record`: the latest row for
the key within the lookback window whose `data_json` is not `'{}'`, with the
symbol filled in when the serialized record lacks one. -/
def get_most_recent_record (s : Store) (symbol assetType : String)
    (lookback_days : ℕ) (today : ℕ) : Option RawRecord :=
  (dateRange (today - lookback_days) today).reverse.findSome?
    (fun d =>
      match s symbol assetType d with
      | none => none
      | some row => row.dataJson.map
          (fun rec => if rec.symbol = none then { rec with symbol := some symbol }
                      else rec))

/-- One row of the provider's quote DataFrame (prices in thousands of VND). -/
structure ProviderBar where
  time : Option ℕ := none
  open_ : Option ℚ := none
  high : Option ℚ := none
  low : Option ℚ := none
  close : Option ℚ := none
  volume : Option ℚ := none
deriving DecidableEq

/-- The quote dict `StockClient.get_latest_quote` builds from the last
DataFrame row: prices multiplied by 1000 (NaN → 0), `adjclose = close`,
volume unscaled, date from the row's time (today when absent). -/
def quote_of_bar (symbol : String) (info : ProviderBar) (today : ℕ) :
    RawRecord :=
  let open_val := match info.open_ with | some x => x * 1000 | none => 0
  let high_val := match info.high with | some x => x * 1000 | none => 0
  let low_val := match info.low with | some x => x * 1000 | none => 0
  let close_val := match info.close with | some x => x * 1000 | none => 0
  let volume_val := info.volume.getD 0
  { symbol := some symbol, date := some (info.time.getD today),
    open_ := some open_val, high := some high_val, low := some low_val,
    close := some close_val, adjclose := some close_val,
    volume := some volume_val }

/-- `StockClient.get_latest_quote` as a state transformer.  Inputs: the
memory quote cache, the persistent quote cache, the historical store, the
provider's response (`none` = the call raised, `some []` = empty DataFrame),
and the `get_stock_history` fallback as a function (only reached when both
the provider and the most-recent-record fallback fail).  Output: the quote,
the new caches and store, and the number of provider quote invocations. -/
def get_latest_quote (mem : MemoryCache) (pc : PersCache) (s : Store)
    (providerResult : Option (List ProviderBar))
    (histFallback : Store → List RawRecord × Store × ℕ)
    (symbol : String) (today : ℕ) (now : ℚ) :
    Option RawRecord × MemoryCache × PersCache × Store × ℕ :=
  match get_quote mem symbol "STOCK" now with
  | (some q, mem1) => (some q, mem1, pc, s, 0)
  | (none, mem1) =>
    match pers_get_quote pc symbol "STOCK" now with
    | some q => (some q, set_quote mem1 symbol "STOCK" q none now, pc, s, 0)
    | none =>
      let fallbackPath : Option RawRecord × MemoryCache × PersCache × Store × ℕ :=
        match get_most_recent_record s symbol "STOCK" 30 today with
        | some recent =>
            (some recent,
             set_quote mem1 symbol "STOCK" recent none now,
             pers_set_quote pc symbol "STOCK" recent (get_ttl_for_asset "STOCK") now,
             s, 1)
        | none =>
            match histFallback s with
            | (history, s2, k2) =>
              match history.getLast? with
              | some last =>
                  let most_recent :=
                    if last.symbol = none then { last with symbol := some symbol }
                    else last
                  (some most_recent,
                   set_quote mem1 symbol "STOCK" most_recent none now,
                   pers_set_quote pc symbol "STOCK" most_recent
                     (get_ttl_for_asset "STOCK") now,
                   s2, 1 + k2)
              | none => (none, mem1, pc, s2, 1 + k2)
      match providerResult with
      | none => fallbackPath
      | some [] => fallbackPath
      | some (b :: bs) =>
          let quote_data := quote_of_bar symbol ((b :: bs).getLast (by simp)) today
          (some quote_data,
           set_quote mem1 symbol "STOCK" quote_data none now,
           pers_set_quote pc symbol "STOCK" quote_data (get_ttl_for_asset "STOCK") now,
           s, 1)

/-- One step of `merge_historical_data`'s dedup dict: records without a date
are skipped, others are keyed by date (later records override). -/
def mergeStep (acc : List (ℕ × RawRecord)) (rec : RawRecord) :
    List (ℕ × RawRecord) :=
  match rec.date with
  | none => acc
  | some d => assocSet acc d rec

/-- `BaseHistoricalCacheManager.merge_historical_data`: cached records first,
then new records (fresher data wins on a date collision), sorted by date.
(The Python dict keyed by ISO date string and sorted by that string is
order-isomorphic to this date-number association list.) -/
def merge_historical_data (cached new : List RawRecord) : List RawRecord :=
  (((cached ++ new).foldl mergeStep []).mergeSort
    (fun p q => p.1 ≤ q.1)).map (fun p => p.2)

/-- The store-then-read normalization of a record: what
`get_cached_records` returns for a record previously written by
`store_historical_records`. -/
def normalizeRecord (rec : RawRecord) : RawRecord :=
  normalizeRow (rec.date.getD 0) (rowOfRecord rec)

/-- A history provider that returns, for a queried range, its per-date rows
in date order — the shape of `fetchHistory` ("sequence of raw rows indexed by
date"). -/
def pointwiseProvider (perDate : ℕ → List RawRecord) : ℕ → ℕ → List RawRecord :=
  fun ms me => (dateRange ms me).flatMap perDate

/-- The body of the per-missing-range loop of
`_get_stock_history_incremental`: fetch the range (one provider invocation),
and when the response is non-empty store it and extend `all_new_records`. -/
def fetchRangesStep (provider : ℕ → ℕ → List RawRecord) (symbol : String)
    (acc : Store × List RawRecord × ℕ) (r : ℕ × ℕ) : Store × List RawRecord × ℕ :=
  let new_data := provider r.1 r.2
  if new_data = [] then (acc.1, acc.2.1, acc.2.2 + 1)
  else ((store_historical_records acc.1 symbol "STOCK" new_data).1,
        acc.2.1 ++ new_data, acc.2.2 + 1)

/-- `StockClient._get_stock_history_incremental` as a state transformer over
the store, with the provider as a function.  Returns the records, the new
store, and the number of provider invocations (`_fetch_stock_history_raw`
is called once per missing range; the stock policy's
`mark_date_range_as_fetched` is a no-op). -/
def get_stock_history_incremental (provider : ℕ → ℕ → List RawRecord)
    (s : Store) (symbol : String) (a b : ℕ) : List RawRecord × Store × ℕ :=
  let cached_dates := get_cached_dates s symbol "STOCK" a b
  let missing_ranges := calculate_missing_date_ranges a b cached_dates
  if missing_ranges = [] then
    (get_cached_records s symbol "STOCK" a b, s, 0)
  else
    let res := missing_ranges.foldl (fetchRangesStep provider symbol)
      (s, ([] : List RawRecord), 0)
    (merge_historical_data (get_cached_records res.1 symbol "STOCK" a b) res.2.1,
     res.1, res.2.2)

/-- A date query parameter as the endpoint sees it: absent (falsy), a string
`strptime` rejects, or a well-formed `YYYY-MM-DD` date. -/
inductive DateParam where
  | missing : DateParam
  | malformed : DateParam
  | valid : ℕ → DateParam
deriving DecidableEq

/-- The date handling shared by `get_history`, `get_gold_history`,
`get_stock_history`, `get_fund_history` and `get_index_history` in
`app/main.py`: default a missing end date to today and a missing start date
to today − 365, then `strptime`-check both formats (HTTP 400 on failure) and
proceed with the dates — there is no future-date check on any of these
endpoints. -/
def endpoint_validate_dates (today : ℕ) (start_date end_date : DateParam) :
    Except ℕ (ℕ × ℕ) :=
  let end_v := match end_date with | .missing => DateParam.valid today | e => e
  let start_v := match start_date with
    | .missing => DateParam.valid (today - 365)
    | st => st
  match start_v, end_v with
  | .valid a, .valid b => .ok (a, b)
  | _, _ => .error 400

/-- `app.utils.date_utils.validate_and_set_dates` (present in the repository
but called by no endpoint): the same defaulting and format check, followed by
the future-date check — a start or end date at or past tomorrow yields
HTTP 400 unless futures are allowed. -/
def validate_and_set_dates (today : ℕ) (start_date end_date : DateParam)
    (allow_future_dates : Bool) : Except ℕ (ℕ × ℕ) :=
  let end_v := match end_date with | .missing => DateParam.valid today | e => e
  let start_v := match start_date with
    | .missing => DateParam.valid (today - 365)
    | st => st
  match start_v, end_v with
  | .valid a, .valid b =>
      if !allow_future_dates ∧ today + 1 ≤ a then .error 400
      else if !allow_future_dates ∧ today + 1 ≤ b then .error 400
      else .ok (a, b)
  | _, _ => .error 400

/-- The stock record of the spec's quote-fallback fixture: FPT, dated
2025-09-26. -/
def fptRecord : RawRecord :=
  { symbol := some "FPT", date := some (daysFromCivil 2025 9 26),
    nav := some 126000, open_ := some 125000, high := some 127000,
    low := some 124000, close := some 126000, adjclose := some 126000,
    volume := some 1000 }

/-- A store holding only the FPT fixture record. -/
def fptStore : Store :=
  upsertRow emptyStore "FPT" "STOCK" (daysFromCivil 2025 9 26)
    (rowOfRecord fptRecord)

/-- The single trading day of the VNM idempotence fixture: 2025-10-01. -/
def vnmDay : ℕ := daysFromCivil 2025 10 1

/-- A raw provider record for VNM on `vnmDay`, shaped as the provider emits
it: it carries a `symbol` key and no `buy_price`/`sell_price`/`nav` keys. -/
def vnmRec : RawRecord :=
  { symbol := some "VNM", date := some vnmDay, open_ := some 1,
    high := some 2, low := some 1, close := some 2, adjclose := some 2,
    volume := some 100 }

/-- A per-date provider history: exactly `vnmRec` on `vnmDay`, nothing on any
other date. -/
def vnmPerDate : ℕ → List RawRecord :=
  fun d => if d = vnmDay then [vnmRec] else []

/-- The store after the first incremental call of the VNM fixture stores the
fetched record. -/
def vnmStore1 : Store :=
  upsertRow emptyStore "VNM" "STOCK" vnmDay (rowOfRecord vnmRec)

lemma dateRange_concat {a b : ℕ} (h : a ≤ b + 1) :
    dateRange a (b + 1) = dateRange a b ++ [b + 1] := by
  unfold dateRange
  have h1 : b + 1 + 1 - a = (b + 1 - a) + 1 := by omega
  rw [h1, List.range'_1_concat]
  have h2 : a + (b + 1 - a) = b + 1 := by omega
  rw [h2]

lemma mem_dateRange {a b d : ℕ} : d ∈ dateRange a b ↔ a ≤ d ∧ d ≤ b := by
  unfold dateRange
  rw [List.mem_range'_1]
  omega

lemma dateRange_self (a : ℕ) : dateRange a a = [a] := by
  unfold dateRange
  have : a + 1 - a = 1 := by omega
  rw [this, List.range'_one]

lemma coalesceRanges_covered :
    ∀ (l : List ℕ) (rs re : ℕ), rs ≤ re → List.Chain' (· < ·) (re :: l) →
      (coalesceRanges rs re l).flatMap rangeDates = dateRange rs re ++ l := by
  intro l
  induction l with
  | nil =>
    intro rs re _ _
    simp [coalesceRanges, rangeDates]
  | cons d ds ih =>
    intro rs re hle hchain
    have hred : re < d := (List.chain'_cons.mp hchain).1
    have hchain2 : List.Chain' (· < ·) (d :: ds) := (List.chain'_cons.mp hchain).2
    unfold coalesceRanges
    by_cases hd : d = re + 1
    · rw [if_pos hd]
      subst hd
      rw [ih rs (re + 1) (by omega) hchain2, dateRange_concat (by omega)]
      simp
    · rw [if_neg hd]
      rw [List.flatMap_cons, ih d d le_rfl hchain2, dateRange_self]
      show rangeDates (rs, re) ++ ([d] ++ ds) = dateRange rs re ++ d :: ds
      simp [rangeDates]

lemma coalesceRanges_head :
    ∀ (l : List ℕ) (rs re : ℕ), ∃ e tl, coalesceRanges rs re l = (rs, e) :: tl ∧ re ≤ e := by
  intro l
  induction l with
  | nil => intro rs re; exact ⟨re, [], rfl, le_rfl⟩
  | cons d ds ih =>
    intro rs re
    unfold coalesceRanges
    by_cases hd : d = re + 1
    · rw [if_pos hd]
      obtain ⟨e, tl, heq, hle⟩ := ih rs d
      exact ⟨e, tl, heq, by omega⟩
    · rw [if_neg hd]
      exact ⟨re, coalesceRanges d d ds, rfl, le_rfl⟩

lemma coalesceRanges_chain :
    ∀ (l : List ℕ) (rs re : ℕ), List.Chain' (· < ·) (re :: l) →
      List.Chain' (fun p q : ℕ × ℕ => p.2 + 1 < q.1) (coalesceRanges rs re l) := by
  intro l
  induction l with
  | nil => intro rs re _; simp [coalesceRanges]
  | cons d ds ih =>
    intro rs re hchain
    have hred : re < d := (List.chain'_cons.mp hchain).1
    have hchain2 : List.Chain' (· < ·) (d :: ds) := (List.chain'_cons.mp hchain).2
    unfold coalesceRanges
    by_cases hd : d = re + 1
    · rw [if_pos hd]
      exact ih rs d hchain2
    · rw [if_neg hd]
      rw [List.chain'_cons']
      refine ⟨?_, ih d d hchain2⟩
      intro q hq
      obtain ⟨e, tl, heq, _⟩ := coalesceRanges_head ds d d
      rw [heq] at hq
      simp only [List.head?_cons, Option.mem_def, Option.some.injEq] at hq
      subst hq
      show re + 1 < d
      omega

lemma coalesceRanges_fst_le_snd :
    ∀ (l : List ℕ) (rs re : ℕ), rs ≤ re → List.Chain' (· < ·) (re :: l) →
      ∀ p ∈ coalesceRanges rs re l, p.1 ≤ p.2 := by
  intro l
  induction l with
  | nil =>
    intro rs re hle _ p hp
    simp [coalesceRanges] at hp
    subst hp
    exact hle
  | cons d ds ih =>
    intro rs re hle hchain p hp
    have hred : re < d := (List.chain'_cons.mp hchain).1
    have hchain2 : List.Chain' (· < ·) (d :: ds) := (List.chain'_cons.mp hchain).2
    unfold coalesceRanges at hp
    by_cases hd : d = re + 1
    · rw [if_pos hd] at hp
      exact ih rs d (by omega) hchain2 p hp
    · rw [if_neg hd] at hp
      rcases List.mem_cons.mp hp with h | h
      · rw [h]; exact hle
      · exact ih d d le_rfl hchain2 p h

lemma missing_sorted_chain (a b : ℕ) (cached : List ℕ) :
    List.Chain' (· < ·) ((dateRange a b).filter (fun d => d ∉ cached)) := by
  rw [List.chain'_iff_pairwise]
  exact (List.pairwise_lt_range' a (b + 1 - a)).filter _

/-- The planner's gap ranges cover exactly the missing dates: flattening the
result gives the ascending enumeration of `[a,b]` with cached dates removed. -/
lemma calculate_missing_date_ranges_covered (a b : ℕ) (cached : List ℕ) :
    (calculate_missing_date_ranges a b cached).flatMap rangeDates
      = (dateRange a b).filter (fun d => d ∉ cached) := by
  unfold calculate_missing_date_ranges
  have hchain := missing_sorted_chain a b cached
  cases h : (dateRange a b).filter (fun d => d ∉ cached) with
  | nil => simp
  | cons d ds =>
    rw [h] at hchain
    simpa [dateRange_self] using coalesceRanges_covered ds d d le_rfl hchain

/-- Claim C1 (amended): for start ≤ end, the dates covered by the returned gap
ranges are exactly the enumeration of [start, end] minus the cached dates — so
their union with the cached dates *that lie inside [start, end]* is the full
enumeration — the gaps are pairwise disjoint, sorted ascending, maximally
coalesced (consecutive gaps are separated by at least one cached date), each
gap is well-formed, and the 2025-10-01..07 example returns the three expected
ranges.  (The original claim's union property used all of cachedDates, which
fails when cachedDates contains dates outside [start, end].) -/
theorem claim_C1_range_planner (a b : ℕ) (cached : List ℕ) (hab : a ≤ b) :
    (∀ d : ℕ,
      (d ∈ (calculate_missing_date_ranges a b cached).flatMap rangeDates
        ∨ (a ≤ d ∧ d ≤ b ∧ d ∈ cached)) ↔ (a ≤ d ∧ d ≤ b))
    ∧ List.Chain' (fun p q : ℕ × ℕ => p.2 + 1 < q.1)
        (calculate_missing_date_ranges a b cached)
    ∧ (∀ p ∈ calculate_missing_date_ranges a b cached, p.1 ≤ p.2)
    ∧ calculate_missing_date_ranges (daysFromCivil 2025 10 1) (daysFromCivil 2025 10 7)
        [daysFromCivil 2025 10 2, daysFromCivil 2025 10 3, daysFromCivil 2025 10 6]
      = [(daysFromCivil 2025 10 1, daysFromCivil 2025 10 1),
         (daysFromCivil 2025 10 4, daysFromCivil 2025 10 5),
         (daysFromCivil 2025 10 7, daysFromCivil 2025 10 7)] := by
  refine ⟨?_, ?_, ?_, by decide⟩
  · intro d
    rw [calculate_missing_date_ranges_covered, List.mem_filter]
    simp only [mem_dateRange, decide_eq_true_eq]
    constructor
    · rintro (⟨⟨h1, h2⟩, _⟩ | ⟨h1, h2, _⟩) <;> exact ⟨h1, h2⟩
    · rintro ⟨h1, h2⟩
      by_cases hc : d ∈ cached
      · exact Or.inr ⟨h1, h2, hc⟩
      · exact Or.inl ⟨⟨h1, h2⟩, hc⟩
  · unfold calculate_missing_date_ranges
    have hchain := missing_sorted_chain a b cached
    cases h : (dateRange a b).filter (fun d => d ∉ cached) with
    | nil => simp
    | cons d ds =>
      rw [h] at hchain
      exact coalesceRanges_chain ds d d hchain
  · unfold calculate_missing_date_ranges
    have hchain := missing_sorted_chain a b cached
    cases h : (dateRange a b).filter (fun d => d ∉ cached) with
    | nil => simp
    | cons d ds =>
      rw [h] at hchain
      exact coalesceRanges_fst_le_snd ds d d le_rfl hchain

/-- Claim C1, counterexample to the claim as stated: with start = end =
2025-10-01 and cachedDates = {2025-10-02}, the union of the gap dates with
cachedDates is not the enumeration of [start, end] (it contains 2025-10-02). -/
theorem claim_C1_counterexample :
    ¬ (∀ d : ℕ,
      (d ∈ (calculate_missing_date_ranges (daysFromCivil 2025 10 1)
              (daysFromCivil 2025 10 1) [daysFromCivil 2025 10 2]).flatMap rangeDates
        ∨ d ∈ [daysFromCivil 2025 10 2])
      ↔ (daysFromCivil 2025 10 1 ≤ d ∧ d ≤ daysFromCivil 2025 10 1)) := by
  intro h
  have h2 := (h (daysFromCivil 2025 10 2)).mp (Or.inr (by decide))
  revert h2
  decide

/-- Witness for claim C1: the amended theorem applied at the concrete fixture
of the spec. -/
theorem claim_C1_witness :
    List.Chain' (fun p q : ℕ × ℕ => p.2 + 1 < q.1)
      (calculate_missing_date_ranges (daysFromCivil 2025 10 1) (daysFromCivil 2025 10 7)
        [daysFromCivil 2025 10 2, daysFromCivil 2025 10 3, daysFromCivil 2025 10 6]) :=
  (claim_C1_range_planner (daysFromCivil 2025 10 1) (daysFromCivil 2025 10 7)
    [daysFromCivil 2025 10 2, daysFromCivil 2025 10 3, daysFromCivil 2025 10 6]
    (by decide)).2.1

lemma foldl_upsert_lookup :
    ∀ (L : List ℕ) (s : Store) (symbol assetType : String) (row : Row)
      (sym at_ : String) (d : ℕ),
      (L.foldl (fun acc x => upsertRow acc symbol assetType x row) s) sym at_ d
        = if sym = symbol ∧ at_ = assetType ∧ d ∈ L then some row else s sym at_ d := by
  intro L
  induction L with
  | nil =>
    intro s symbol assetType row sym at_ d
    simp
  | cons x xs ih =>
    intro s symbol assetType row sym at_ d
    rw [List.foldl_cons, ih]
    by_cases h1 : sym = symbol
    · by_cases h2 : at_ = assetType
      · by_cases h3 : d ∈ xs
        · rw [if_pos ⟨h1, h2, h3⟩, if_pos ⟨h1, h2, List.mem_cons_of_mem x h3⟩]
        · rw [if_neg (fun hc => h3 hc.2.2)]
          by_cases h4 : d = x
          · rw [if_pos ⟨h1, h2, by rw [h4]; exact List.mem_cons_self x xs⟩]
            simp [upsertRow, h1, h2, h4]
          · rw [if_neg (fun hc => by
              rcases List.mem_cons.mp hc.2.2 with h | h
              · exact h4 h
              · exact h3 h)]
            simp [upsertRow, h4]
      · rw [if_neg (fun hc => h2 hc.2.1), if_neg (fun hc => h2 hc.2.1)]
        simp [upsertRow, h2]
    · rw [if_neg (fun hc => h1 hc.1), if_neg (fun hc => h1 hc.1)]
      simp [upsertRow, h1]

/-- Claim C2: the legacy shared policy's `mark_date_range_as_fetched` never
overwrites an existing record: any record stored for (symbol, asset_type, d)
with d in the range — in particular one with non-zero prices — is unchanged by
the call, and every key whose value changes was absent before the call and
holds the zero-valued placeholder row afterwards. -/
theorem claim_C2_placeholder_never_overwrites
    (s : Store) (symbol assetType : String) (a b : ℕ) :
    (∀ (d : ℕ) (row : Row), a ≤ d → d ≤ b →
      s symbol assetType d = some row → hasNonzeroPrices row = true →
      (mark_date_range_as_fetched s symbol assetType a b).1 symbol assetType d = some row)
    ∧ (∀ (sym at_ : String) (d : ℕ),
        (mark_date_range_as_fetched s symbol assetType a b).1 sym at_ d ≠ s sym at_ d →
        s sym at_ d = none ∧ sym = symbol ∧ at_ = assetType ∧ a ≤ d ∧ d ≤ b ∧
        (mark_date_range_as_fetched s symbol assetType a b).1 sym at_ d
          = some placeholderRow) := by
  have key : ∀ (sym at_ : String) (d : ℕ),
      (mark_date_range_as_fetched s symbol assetType a b).1 sym at_ d
        = if sym = symbol ∧ at_ = assetType ∧
              d ∈ (dateRange a b).filter
                    (fun x => x ∉ get_cached_dates s symbol assetType a b)
          then some placeholderRow else s sym at_ d :=
    fun sym at_ d =>
      foldl_upsert_lookup
        ((dateRange a b).filter (fun x => x ∉ get_cached_dates s symbol assetType a b))
        s symbol assetType placeholderRow sym at_ d
  constructor
  · intro d row h1 h2 hrow _
    have hd : d ∈ get_cached_dates s symbol assetType a b := by
      unfold get_cached_dates
      rw [List.mem_filter]
      exact ⟨mem_dateRange.mpr ⟨h1, h2⟩, by rw [hrow]; rfl⟩
    rw [key, if_neg]
    · exact hrow
    · rintro ⟨-, -, hmem⟩
      rw [List.mem_filter] at hmem
      exact absurd hd (by simpa using hmem.2)
  · intro sym at_ d hne
    rw [key] at hne
    by_cases hc : sym = symbol ∧ at_ = assetType ∧
        d ∈ (dateRange a b).filter
              (fun x => x ∉ get_cached_dates s symbol assetType a b)
    · obtain ⟨hs, ha, hmem⟩ := hc
      rw [List.mem_filter] at hmem
      have hrange := mem_dateRange.mp hmem.1
      have hnc : d ∉ get_cached_dates s symbol assetType a b := by simpa using hmem.2
      have hnone : s sym at_ d = none := by
        subst hs
        subst ha
        by_contra hsome
        apply hnc
        unfold get_cached_dates
        rw [List.mem_filter]
        refine ⟨mem_dateRange.mpr hrange, ?_⟩
        cases h : s sym at_ d with
        | none => exact absurd h hsome
        | some _ => rfl
      refine ⟨hnone, hs, ha, hrange.1, hrange.2, ?_⟩
      rw [key, if_pos ⟨hs, ha, List.mem_filter.mpr hmem⟩]
    · rw [if_neg hc] at hne
      exact absurd rfl hne

/-- Witness for claim C2: a concrete store holding a real FPT record inside
the marked range; the record is intact after the legacy placeholder write. -/
theorem claim_C2_witness :
    (mark_date_range_as_fetched
        (upsertRow emptyStore "FPT" "STOCK" (daysFromCivil 2025 10 2)
          { open_ := some 1, high := some 2, low := some 1, close := some 5,
            dataJson := some { date := some (daysFromCivil 2025 10 2) } })
        "FPT" "STOCK" (daysFromCivil 2025 10 1) (daysFromCivil 2025 10 3)).1
      "FPT" "STOCK" (daysFromCivil 2025 10 2)
      = some { open_ := some 1, high := some 2, low := some 1, close := some 5,
               dataJson := some { date := some (daysFromCivil 2025 10 2) } } :=
  (claim_C2_placeholder_never_overwrites
      (upsertRow emptyStore "FPT" "STOCK" (daysFromCivil 2025 10 2)
        { open_ := some 1, high := some 2, low := some 1, close := some 5,
          dataJson := some { date := some (daysFromCivil 2025 10 2) } })
      "FPT" "STOCK" (daysFromCivil 2025 10 1) (daysFromCivil 2025 10 3)).1
    (daysFromCivil 2025 10 2) _ (by decide) (by decide) (by decide) (by decide)

lemma mem_get_cached_records {s : Store} {symbol assetType : String} {a b : ℕ}
    {rec : RawRecord} :
    rec ∈ get_cached_records s symbol assetType a b ↔
      ∃ d row, a ≤ d ∧ d ≤ b ∧ s symbol assetType d = some row ∧
        isRealRow row = true ∧ rec = normalizeRow d row := by
  unfold get_cached_records
  rw [List.mem_filterMap]
  constructor
  · rintro ⟨d, hd, hmap⟩
    rw [mem_dateRange] at hd
    split at hmap
    · cases hmap
    · rename_i row heq
      split at hmap
      · rename_i hreal
        exact ⟨d, row, hd.1, hd.2, heq, hreal, (Option.some.injEq _ _).mp hmap |>.symm⟩
      · cases hmap
  · rintro ⟨d, row, h1, h2, hrow, hreal, rfl⟩
    refine ⟨d, mem_dateRange.mpr ⟨h1, h2⟩, ?_⟩
    rw [hrow]
    simp [hreal]

lemma get_gold_history_eq {s : Store} {a b : ℕ} {symbol ns : String}
    (h : parse_symbol_gold symbol = some ns) :
    get_gold_history s symbol a b
      = apply_unit_conversion (get_cached_records s ns "GOLD" a b) symbol := by
  unfold get_gold_history
  rw [h]

/-- Claim C3: gold unit conversion.  For every real record stored under the
canonical symbol `VN.GOLD` with date in the requested range, the history for
`VN.GOLD.C` contains that record with `open, high, low, close, adjclose,
buy_price, sell_price` (and `nav`) divided by 10 and `volume` and `date`
unchanged, while the history for `VN.GOLD` contains it with all price fields
unchanged; and the spec's concrete example (buy 80 000 000 / sell 82 000 000
seeded on 2025-10-01) comes back for `VN.GOLD.C` as buy 8 000 000,
sell 8 200 000, close 8 200 000. -/
theorem claim_C3_gold_unit_conversion :
    (∀ (s : Store) (a b d : ℕ) (row : Row), a ≤ d → d ≤ b →
      s "VN.GOLD" "GOLD" d = some row → isRealRow row = true →
      ({ normalizeRow d row with
          symbol := some "VN.GOLD.C",
          nav := (normalizeRow d row).nav.map (fun x => x / 10),
          open_ := (normalizeRow d row).open_.map (fun x => x / 10),
          high := (normalizeRow d row).high.map (fun x => x / 10),
          low := (normalizeRow d row).low.map (fun x => x / 10),
          close := (normalizeRow d row).close.map (fun x => x / 10),
          adjclose := (normalizeRow d row).adjclose.map (fun x => x / 10),
          buy_price := (normalizeRow d row).buy_price.map (fun x => x / 10),
          sell_price := (normalizeRow d row).sell_price.map (fun x => x / 10) }
        ∈ get_gold_history s "VN.GOLD.C" a b)
      ∧ ({ normalizeRow d row with symbol := some "VN.GOLD" }
          ∈ get_gold_history s "VN.GOLD" a b))
    ∧ get_gold_history goldSeedStore "VN.GOLD.C"
        (daysFromCivil 2025 10 1) (daysFromCivil 2025 10 1)
      = [{ symbol := some "VN.GOLD.C", date := some (daysFromCivil 2025 10 1),
           open_ := some 8200000, high := some 8200000, low := some 8200000,
           close := some 8200000, adjclose := some 0, volume := some 0,
           nav := some 8200000, buy_price := some 8000000,
           sell_price := some 8200000 }] := by
  have hparseC : parse_symbol_gold "VN.GOLD.C" = some "VN.GOLD" := by decide
  have hparseL : parse_symbol_gold "VN.GOLD" = some "VN.GOLD" := by decide
  have hcC : pyEndsWith "VN.GOLD.C" ".C" = true := by decide
  have hcL : pyEndsWith "VN.GOLD" ".C" = false := by decide
  constructor
  · intro s a b d row h1 h2 hrow hreal
    have hmem : normalizeRow d row ∈ get_cached_records s "VN.GOLD" "GOLD" a b :=
      mem_get_cached_records.mpr ⟨d, row, h1, h2, hrow, hreal, rfl⟩
    constructor
    · rw [get_gold_history_eq hparseC]
      unfold apply_unit_conversion
      have hm := List.mem_map_of_mem
        (fun rec : RawRecord =>
          let rec1 := { rec with symbol := some "VN.GOLD.C" }
          if pyEndsWith "VN.GOLD.C" ".C" then
            { rec1 with
              nav := rec1.nav.map (fun x => x / 10),
              open_ := rec1.open_.map (fun x => x / 10),
              high := rec1.high.map (fun x => x / 10),
              low := rec1.low.map (fun x => x / 10),
              close := rec1.close.map (fun x => x / 10),
              adjclose := rec1.adjclose.map (fun x => x / 10),
              buy_price := rec1.buy_price.map (fun x => x / 10),
              sell_price := rec1.sell_price.map (fun x => x / 10) }
          else rec1) hmem
      simpa [hcC] using hm
    · rw [get_gold_history_eq hparseL]
      unfold apply_unit_conversion
      have hm := List.mem_map_of_mem
        (fun rec : RawRecord =>
          let rec1 := { rec with symbol := some "VN.GOLD" }
          if pyEndsWith "VN.GOLD" ".C" then
            { rec1 with
              nav := rec1.nav.map (fun x => x / 10),
              open_ := rec1.open_.map (fun x => x / 10),
              high := rec1.high.map (fun x => x / 10),
              low := rec1.low.map (fun x => x / 10),
              close := rec1.close.map (fun x => x / 10),
              adjclose := rec1.adjclose.map (fun x => x / 10),
              buy_price := rec1.buy_price.map (fun x => x / 10),
              sell_price := rec1.sell_price.map (fun x => x / 10) }
          else rec1) hmem
      simpa [hcL] using hm
  · rw [get_gold_history_eq hparseC]
    have h1 : get_cached_records goldSeedStore "VN.GOLD" "GOLD"
        (daysFromCivil 2025 10 1) (daysFromCivil 2025 10 1)
      = [{ symbol := none, date := some (daysFromCivil 2025 10 1),
           open_ := some 82000000, high := some 82000000, low := some 82000000,
           close := some 82000000, adjclose := some 0, volume := some 0,
           nav := some 82000000, buy_price := some 80000000,
           sell_price := some 82000000 }] := by decide
    rw [h1]
    unfold apply_unit_conversion
    simp only [List.map_cons, List.map_nil, hcC, if_true]
    norm_num

/-- Witness for claim C3: the general part applied to the seeded concrete
store at 2025-10-01; the converted record is a member of the `VN.GOLD.C`
history. -/
theorem claim_C3_witness :
    { normalizeRow (daysFromCivil 2025 10 1) (rowOfRecord goldSeedRecord) with
        symbol := some "VN.GOLD.C",
        nav := (normalizeRow (daysFromCivil 2025 10 1)
          (rowOfRecord goldSeedRecord)).nav.map (fun x => x / 10),
        open_ := (normalizeRow (daysFromCivil 2025 10 1)
          (rowOfRecord goldSeedRecord)).open_.map (fun x => x / 10),
        high := (normalizeRow (daysFromCivil 2025 10 1)
          (rowOfRecord goldSeedRecord)).high.map (fun x => x / 10),
        low := (normalizeRow (daysFromCivil 2025 10 1)
          (rowOfRecord goldSeedRecord)).low.map (fun x => x / 10),
        close := (normalizeRow (daysFromCivil 2025 10 1)
          (rowOfRecord goldSeedRecord)).close.map (fun x => x / 10),
        adjclose := (normalizeRow (daysFromCivil 2025 10 1)
          (rowOfRecord goldSeedRecord)).adjclose.map (fun x => x / 10),
        buy_price := (normalizeRow (daysFromCivil 2025 10 1)
          (rowOfRecord goldSeedRecord)).buy_price.map (fun x => x / 10),
        sell_price := (normalizeRow (daysFromCivil 2025 10 1)
          (rowOfRecord goldSeedRecord)).sell_price.map (fun x => x / 10) }
      ∈ get_gold_history goldSeedStore "VN.GOLD.C"
          (daysFromCivil 2025 10 1) (daysFromCivil 2025 10 1) :=
  (claim_C3_gold_unit_conversion.1 goldSeedStore
      (daysFromCivil 2025 10 1) (daysFromCivil 2025 10 1) (daysFromCivil 2025 10 1)
      (rowOfRecord goldSeedRecord) le_rfl le_rfl (by decide) (by decide)).1

lemma isRealRow_isSome {row : Row} (h : isRealRow row = true) :
    row.open_.isSome = true ∧ row.high.isSome = true ∧ row.low.isSome = true ∧
      row.close.isSome = true := by
  unfold isRealRow at h
  simp only [Bool.and_eq_true] at h
  exact ⟨h.1.1.1.1, h.1.1.1.2, h.1.1.2, h.1.2⟩

lemma isRealRow_not_all_zero {row : Row} (h : isRealRow row = true) :
    ¬(row.open_ = some 0 ∧ row.high = some 0 ∧ row.low = some 0 ∧
        row.close = some 0) := by
  rintro ⟨h1, h2, h3, h4⟩
  rw [isRealRow, h1, h2, h3, h4] at h
  simp at h

lemma get_cached_records_entry_date {s : Store} {symbol assetType : String}
    {d : ℕ} {rec : RawRecord}
    (h : (match s symbol assetType d with
          | none => none
          | some r => if isRealRow r then some (normalizeRow d r) else none)
         = some rec) :
    rec.date = some d := by
  split at h
  · cases h
  · split at h
    · cases h
      rfl
    · cases h

/-- Claim C6 (amended): `get_cached_records` returns exactly the stored
records for the key whose date lies in [start, end] and whose
`open, high, low, close` columns are all non-null and not all zero — in
particular placeholder rows are never returned and no returned record has all
four OHLC fields zero — each normalized, ordered strictly ascending by date.
(The original claim promised every non-placeholder stored record back; the
code's filter also drops rows with a null OHLC column even when another price
field is non-zero.) -/
theorem claim_C6_store_read_postcondition
    (s : Store) (symbol assetType : String) (a b : ℕ) :
    (∀ rec, rec ∈ get_cached_records s symbol assetType a b ↔
      ∃ d row, a ≤ d ∧ d ≤ b ∧ s symbol assetType d = some row ∧
        isRealRow row = true ∧ rec = normalizeRow d row)
    ∧ List.Pairwise (fun u v : RawRecord => u.date.getD 0 < v.date.getD 0)
        (get_cached_records s symbol assetType a b)
    ∧ (∀ rec ∈ get_cached_records s symbol assetType a b,
        ¬(rec.open_ = some 0 ∧ rec.high = some 0 ∧ rec.low = some 0 ∧
            rec.close = some 0)) := by
  refine ⟨fun rec => mem_get_cached_records, ?_, ?_⟩
  · unfold get_cached_records
    rw [List.pairwise_filterMap]
    refine List.Pairwise.imp ?_ (List.pairwise_lt_range' a (b + 1 - a))
    intro d1 d2 hlt r1 h1 r2 h2
    rw [get_cached_records_entry_date h1, get_cached_records_entry_date h2]
    simpa using hlt
  · intro rec hrec hall
    obtain ⟨d, row, -, -, -, hreal, rfl⟩ := mem_get_cached_records.mp hrec
    obtain ⟨hso, hsh, hsl, hsc⟩ := isRealRow_isSome hreal
    obtain ⟨xo, ho⟩ := Option.isSome_iff_exists.mp hso
    obtain ⟨xh, hh⟩ := Option.isSome_iff_exists.mp hsh
    obtain ⟨xl, hl⟩ := Option.isSome_iff_exists.mp hsl
    obtain ⟨xc, hc⟩ := Option.isSome_iff_exists.mp hsc
    obtain ⟨e1, e2, e3, e4⟩ := hall
    apply isRealRow_not_all_zero hreal
    rw [normalizeRow] at e1 e2 e3 e4
    simp only [ho, hh, hl, hc, Option.getD_some, Option.some.injEq] at e1 e2 e3 e4
    rw [ho, hh, hl, hc, e1, e2, e3, e4]
    exact ⟨rfl, rfl, rfl, rfl⟩

/-- Claim C6, counterexample to the claim as stated: a stored record whose
`open` column is null but whose `close` is 5 is not a placeholder (its price
fields are not all null or zero), yet `get_cached_records` does not return
it. -/
theorem claim_C6_counterexample :
    (upsertRow emptyStore "X" "STOCK" (daysFromCivil 2025 10 1)
        { high := some 1, low := some 1, close := some 5,
          dataJson := some { date := some (daysFromCivil 2025 10 1), close := some 5 } })
      "X" "STOCK" (daysFromCivil 2025 10 1)
      = some { high := some 1, low := some 1, close := some 5,
               dataJson := some { date := some (daysFromCivil 2025 10 1), close := some 5 } }
    ∧ hasNonzeroPrices
        { high := some 1, low := some 1, close := some 5,
          dataJson := some { date := some (daysFromCivil 2025 10 1), close := some 5 } }
      = true
    ∧ get_cached_records
        (upsertRow emptyStore "X" "STOCK" (daysFromCivil 2025 10 1)
          { high := some 1, low := some 1, close := some 5,
            dataJson := some { date := some (daysFromCivil 2025 10 1), close := some 5 } })
        "X" "STOCK" (daysFromCivil 2025 10 1) (daysFromCivil 2025 10 1)
      = [] := by
  refine ⟨by decide, by decide, by decide⟩

/-- Witness for claim C6: the characterization applied to the gold fixture
store — the seeded record is returned, normalized. -/
theorem claim_C6_witness :
    normalizeRow (daysFromCivil 2025 10 1) (rowOfRecord goldSeedRecord)
      ∈ get_cached_records goldSeedStore "VN.GOLD" "GOLD"
          (daysFromCivil 2025 10 1) (daysFromCivil 2025 10 1) :=
  ((claim_C6_store_read_postcondition goldSeedStore "VN.GOLD" "GOLD"
      (daysFromCivil 2025 10 1) (daysFromCivil 2025 10 1)).1 _).mpr
    ⟨daysFromCivil 2025 10 1, rowOfRecord goldSeedRecord, le_rfl, le_rfl,
      by decide, by decide, rfl⟩

lemma dates_to_ranges_go_sound {Q : ℕ → Prop} :
    ∀ (l : List ℕ) (start prev : ℕ),
      List.Chain' (· < ·) (prev :: l) →
      (∀ x ∈ l, Q x) →
      (∀ x, start ≤ x → x ≤ prev → Q x) →
      ∀ p ∈ dates_to_ranges_go start prev l, ∀ x, p.1 ≤ x → x ≤ p.2 → Q x := by
  intro l
  induction l with
  | nil =>
    intro start prev _ _ hrun p hp
    simp [dates_to_ranges_go] at hp
    subst hp
    exact hrun
  | cons d ds ih =>
    intro start prev hchain hQ hrun p hp
    have hlt : prev < d := (List.chain'_cons.mp hchain).1
    have hchain2 : List.Chain' (· < ·) (d :: ds) := (List.chain'_cons.mp hchain).2
    have hQtail : ∀ x ∈ ds, Q x := fun x hx => hQ x (List.mem_cons_of_mem d hx)
    have hQd : Q d := hQ d (List.mem_cons_self d ds)
    unfold dates_to_ranges_go at hp
    by_cases hgap : (d : ℤ) - (prev : ℤ) > 1
    · rw [if_pos hgap] at hp
      rcases List.mem_cons.mp hp with h | h
      · subst h
        exact hrun
      · exact ih d d hchain2 hQtail (fun x hx1 hx2 => by
          have : x = d := by omega
          rw [this]; exact hQd) p h
    · rw [if_neg hgap] at hp
      have hd : d = prev + 1 := by omega
      exact ih start d hchain2 hQtail (fun x hx1 hx2 => by
        by_cases hsplit : x ≤ prev
        · exact hrun x hx1 hsplit
        · have : x = d := by omega
          rw [this]; exact hQd) p hp

lemma dates_to_ranges_sound {Q : ℕ → Prop} (l : List ℕ)
    (hchain : List.Chain' (· < ·) l) (hQ : ∀ x ∈ l, Q x) :
    ∀ p ∈ dates_to_ranges l, ∀ x, p.1 ≤ x → x ≤ p.2 → Q x := by
  cases l with
  | nil => intro p hp; simp [dates_to_ranges] at hp
  | cons d ds =>
    exact dates_to_ranges_go_sound ds d d hchain
      (fun x hx => hQ x (List.mem_cons_of_mem d hx))
      (fun x hx1 hx2 => by
        have : x = d := by omega
        rw [this]; exact hQ d (List.mem_cons_self d ds))

lemma chunkRangeGo_bounds :
    ∀ (fuel cs re k : ℕ), ∀ p ∈ chunkRangeGo fuel cs re k, cs ≤ p.1 ∧ p.2 ≤ re := by
  intro fuel
  induction fuel with
  | zero =>
    intro cs re k p hp
    cases hp
  | succ m ih =>
    intro cs re k p hp
    unfold chunkRangeGo at hp
    split at hp
    · rename_i h
      rcases List.mem_cons.mp hp with heq | hmem
      · subst heq
        exact ⟨le_rfl, min_le_right _ _⟩
      · have := ih (min (cs + k - 1) re + 1) re k p hmem
        refine ⟨le_trans ?_ this.1, this.2⟩
        omega
    · cases hp

lemma chunkRange_bounds (cs re k : ℕ) :
    ∀ p ∈ chunkRange cs re k, cs ≤ p.1 ∧ p.2 ≤ re :=
  chunkRangeGo_bounds (re + 1 - cs) cs re k

/-- Claim C10: every date covered by any chunk the lazy-fetch worker would
fetch is a weekday (Monday–Friday), for every store, symbol, asset type
(including GOLD) and range — weekend dates absent from the store are never
backfilled by lazy fetch. -/
theorem claim_C10_lazy_fetch_weekday_only
    (s : Store) (symbol assetType : String) (a b : ℕ) :
    ∀ p ∈ worker_chunks s symbol assetType a b, ∀ d, p.1 ≤ d → d ≤ p.2 →
      pyWeekday d < 5 := by
  intro p hp d hd1 hd2
  unfold worker_chunks create_chunks at hp
  rw [List.mem_flatMap] at hp
  obtain ⟨q, hq, hpq⟩ := hp
  have hb := chunkRange_bounds q.1 q.2 _ p hpq
  unfold lazy_get_missing_date_ranges at hq
  have hchain : List.Chain' (· < ·)
      (((dateRange a b).filter (fun x => pyWeekday x < 5)).filter
        (fun x => x ∉ (dateRange a b).filter
          (fun y => (s symbol assetType y).isSome))) := by
    rw [List.chain'_iff_pairwise]
    exact ((List.pairwise_lt_range' a (b + 1 - a)).filter _).filter _
  have hQ : ∀ x ∈ ((dateRange a b).filter (fun x => pyWeekday x < 5)).filter
      (fun x => x ∉ (dateRange a b).filter
        (fun y => (s symbol assetType y).isSome)), pyWeekday x < 5 := by
    intro x hx
    have := (List.mem_filter.mp (List.mem_filter.mp hx).1).2
    simpa using this
  exact dates_to_ranges_sound _ hchain hQ q hq d (le_trans hb.1 hd1)
    (le_trans hd2 hb.2)

/-- Witness for claim C10: against an empty store, the gold worker's first
chunk for 2025-10-01..07 is (Wed 2025-10-01, Fri 2025-10-03); its middle date
2025-10-02 is a weekday. -/
theorem claim_C10_witness :
    pyWeekday (daysFromCivil 2025 10 2) < 5 :=
  claim_C10_lazy_fetch_weekday_only emptyStore "VN.GOLD" "GOLD"
    (daysFromCivil 2025 10 1) (daysFromCivil 2025 10 7)
    (daysFromCivil 2025 10 1, daysFromCivil 2025 10 3) (by decide)
    (daysFromCivil 2025 10 2) (by decide) (by decide)

/-- Claim C5: with throttling enabled (and `now` no earlier than the minimum
interval, as wall-clock epoch seconds always are), `should_throttle` returns
true whenever, after evicting entries older than their windows, the minute
window holds at least `max_calls_per_minute` timestamps, or the hour window
holds at least `max_calls_per_hour`, or `now - last_call_time` is below the
minimum interval; and in the spec's scenario (max 3/minute, zero interval),
after five sequential `record_call`s throttling is on, and 60 s after the
last call it is off. -/
theorem claim_C5_rate_limiter :
    (∀ (cfg : RLConfig) (st : RLState) (now : ℚ),
      cfg.enable_throttling = true →
      cfg.delay_between_calls_ms / 1000 ≤ now →
      (cfg.max_calls_per_minute ≤ (cleanup_old_timestamps now st).minute_calls.length
        ∨ cfg.max_calls_per_hour ≤ (cleanup_old_timestamps now st).hour_calls.length
        ∨ now - st.last_call_time < cfg.delay_between_calls_ms / 1000) →
      should_throttle cfg st now = true)
    ∧ (should_throttle ⟨3, 500, 0, true⟩
        (record_call (record_call (record_call (record_call (record_call
          ⟨[], [], 0⟩ 100) 101) 102) 103) 104) 104 = true
      ∧ should_throttle ⟨3, 500, 0, true⟩
          (record_call (record_call (record_call (record_call (record_call
            ⟨[], [], 0⟩ 100) 101) 102) 103) 104) 164 = false) := by
  constructor
  · intro cfg st now henabled hmin hdis
    rw [should_throttle]
    rw [henabled]
    simp only [Bool.not_true, Bool.false_eq_true, if_false]
    by_cases h1 : cfg.max_calls_per_minute ≤
        (cleanup_old_timestamps now st).minute_calls.length
    · rw [if_pos h1]
    · rw [if_neg h1]
      by_cases h2 : cfg.max_calls_per_hour ≤
          (cleanup_old_timestamps now st).hour_calls.length
      · rw [if_pos h2]
      · rw [if_neg h2]
        have h3 : now - st.last_call_time < cfg.delay_between_calls_ms / 1000 := by
          rcases hdis with h | h | h
          · exact absurd h h1
          · exact absurd h h2
          · exact h
        have hpos : st.last_call_time > 0 := by linarith
        rw [if_pos ⟨hpos, h3⟩]
  · have hst : record_call (record_call (record_call (record_call (record_call
        ⟨[], [], 0⟩ 100) 101) 102) 103) 104
      = ⟨[100, 101, 102, 103, 104], [100, 101, 102, 103, 104], 104⟩ := by
      norm_num [record_call, cleanup_old_timestamps, List.dropWhile]
    rw [hst]
    constructor
    · norm_num [should_throttle, cleanup_old_timestamps, List.dropWhile]
    · norm_num [should_throttle, cleanup_old_timestamps, List.dropWhile]

/-- Witness for claim C5: throttling fires on a minute window already at
capacity after cleanup. -/
theorem claim_C5_witness :
    should_throttle ⟨3, 500, 0, true⟩ ⟨[1, 2, 3], [1, 2, 3], 3⟩ 60 = true :=
  claim_C5_rate_limiter.1 ⟨3, 500, 0, true⟩ ⟨[1, 2, 3], [1, 2, 3], 3⟩ 60 rfl
    (by simp) (Or.inl (by simp [cleanup_old_timestamps]))

lemma assocGet_set_self {κ α : Type} [DecidableEq κ] :
    ∀ (l : List (κ × α)) (k : κ) (v : α), assocGet (assocSet l k v) k = some v := by
  intro l k v
  induction l with
  | nil => simp [assocGet, assocSet, List.find?]
  | cons p ps ih =>
    by_cases hp : p.1 = k
    · simp [assocGet, assocSet, hp, List.find?]
    · have hstep : assocGet (assocSet (p :: ps) k v) k = assocGet (assocSet ps k v) k := by
        unfold assocSet
        have hcond : ((p :: ps).any fun q => decide (q.1 = k))
            = (ps.any fun q => decide (q.1 = k)) := by
          simp [hp]
        rw [hcond]
        by_cases hany : (ps.any fun q => decide (q.1 = k)) = true
        · rw [if_pos hany, if_pos hany]
          simp [assocGet, List.find?, hp]
        · rw [if_neg hany, if_neg hany]
          simp [assocGet, List.find?, hp]
      rw [hstep, ih]

lemma assocGet_remove_self {κ α : Type} [DecidableEq κ] (l : List (κ × α)) (k : κ) :
    assocGet (assocRemove l k) k = none := by
  unfold assocGet assocRemove
  have : (l.filter (fun p => ¬(p.1 = k))).find? (fun p => p.1 = k) = none := by
    rw [List.find?_eq_none]
    intro x hx
    have := (List.mem_filter.mp hx).2
    simpa using this
  rw [this]
  rfl

lemma set_quote_cache_lookup (c : MemoryCache) (symbol assetType : String)
    (v : RawRecord) (ttlArg : Option ℕ) (t0 : ℚ) :
    assocGet (set_quote c symbol assetType v ttlArg t0).cache
      (quoteKey symbol assetType) = some ⟨v, t0, t0⟩ := by
  unfold set_quote mcSet
  exact assocGet_set_self _ _ _

lemma set_quote_ttl_lookup (c : MemoryCache) (symbol assetType : String)
    (v : RawRecord) (t0 : ℚ) :
    assocGet (set_quote c symbol assetType v none t0).ttl
      (quoteKey symbol assetType)
      = some (t0 + (get_ttl_for_asset assetType : ℚ)) := by
  unfold set_quote mcSet
  exact assocGet_set_self _ _ _

lemma get_quote_after_set_fresh (c : MemoryCache) (symbol assetType : String)
    (v : RawRecord) (t0 t : ℚ)
    (ht : t < t0 + (get_ttl_for_asset assetType : ℚ)) :
    (get_quote (set_quote c symbol assetType v none t0) symbol assetType t).1
      = some v := by
  unfold get_quote mcGet
  rw [set_quote_cache_lookup, set_quote_ttl_lookup]
  simp only [Option.getD_some]
  rw [if_pos ht]

lemma get_quote_after_set_expired (c : MemoryCache) (symbol assetType : String)
    (v : RawRecord) (t0 t : ℚ)
    (ht : t0 + (get_ttl_for_asset assetType : ℚ) ≤ t) :
    (get_quote (set_quote c symbol assetType v none t0) symbol assetType t).1 = none
    ∧ assocGet
        (get_quote (set_quote c symbol assetType v none t0) symbol assetType t).2.cache
        (quoteKey symbol assetType) = none := by
  unfold get_quote mcGet
  rw [set_quote_cache_lookup, set_quote_ttl_lookup]
  simp only [Option.getD_some]
  rw [if_neg (by linarith)]
  exact ⟨rfl, assocGet_remove_self _ _⟩

/-- Claim C7: quote TTL boundaries.  A FUND quote written at `t0` (stored with
the asset TTL 86 400 s) is returned by every read strictly before
`t0 + 86 400` and a STOCK quote before `t0 + 3 600`; a read at or past the
boundary misses, evicts the entry, and — with the persistent quote cache also
missing — the quote read path performs a provider invocation. -/
theorem claim_C7_quote_ttl_boundaries (c : MemoryCache) (symbol : String)
    (v : RawRecord) (t0 t : ℚ) :
    ((t0 ≤ t → t < t0 + 86400 →
      (get_quote (set_quote c symbol "FUND" v none t0) symbol "FUND" t).1 = some v)
    ∧ (t0 + 86400 ≤ t →
      (get_quote (set_quote c symbol "FUND" v none t0) symbol "FUND" t).1 = none
      ∧ assocGet
          (get_quote (set_quote c symbol "FUND" v none t0) symbol "FUND" t).2.cache
          (quoteKey symbol "FUND") = none))
    ∧ ((t0 ≤ t → t < t0 + 3600 →
      (get_quote (set_quote c symbol "STOCK" v none t0) symbol "STOCK" t).1 = some v)
    ∧ (t0 + 3600 ≤ t →
      (get_quote (set_quote c symbol "STOCK" v none t0) symbol "STOCK" t).1 = none
      ∧ assocGet
          (get_quote (set_quote c symbol "STOCK" v none t0) symbol "STOCK" t).2.cache
          (quoteKey symbol "STOCK") = none))
    ∧ (∀ (pc : PersCache) (s : Store) (pr : Option (List ProviderBar))
         (hf : Store → List RawRecord × Store × ℕ) (today : ℕ),
        t0 + 3600 ≤ t →
        pers_get_quote pc symbol "STOCK" t = none →
        1 ≤ (get_latest_quote (set_quote c symbol "STOCK" v none t0) pc s pr hf
              symbol today t).2.2.2.2) := by
  have hfund : (get_ttl_for_asset "FUND" : ℚ) = 86400 := by
    have : get_ttl_for_asset "FUND" = 86400 := by decide
    rw [this]
    norm_num
  have hstock : (get_ttl_for_asset "STOCK" : ℚ) = 3600 := by
    have : get_ttl_for_asset "STOCK" = 3600 := by decide
    rw [this]
    norm_num
  refine ⟨⟨?_, ?_⟩, ⟨?_, ?_⟩, ?_⟩
  · intro _ ht
    exact get_quote_after_set_fresh c symbol "FUND" v t0 t (by rw [hfund]; exact ht)
  · intro ht
    exact get_quote_after_set_expired c symbol "FUND" v t0 t (by rw [hfund]; exact ht)
  · intro _ ht
    exact get_quote_after_set_fresh c symbol "STOCK" v t0 t (by rw [hstock]; exact ht)
  · intro ht
    exact get_quote_after_set_expired c symbol "STOCK" v t0 t (by rw [hstock]; exact ht)
  · intro pc s pr hf today ht hpers
    have hmiss :=
      (get_quote_after_set_expired c symbol "STOCK" v t0 t (by rw [hstock]; exact ht)).1
    have hpair : get_quote (set_quote c symbol "STOCK" v none t0) symbol "STOCK" t
        = (none, (get_quote (set_quote c symbol "STOCK" v none t0) symbol "STOCK" t).2) := by
      rw [← hmiss]
    unfold get_latest_quote
    rw [hpair, hpers]
    rcases pr with _ | bars
    · cases hmr : get_most_recent_record s symbol "STOCK" 30 today with
      | some recent => simp [hmr]
      | none =>
        simp only [hmr]
        rcases hh : hf s with ⟨history, s2, k2⟩
        cases hl : history.getLast? <;> simp [hh, hl]
    · cases bars with
      | nil =>
        cases hmr : get_most_recent_record s symbol "STOCK" 30 today with
        | some recent => simp [hmr]
        | none =>
          simp only [hmr]
          rcases hh : hf s with ⟨history, s2, k2⟩
          cases hl : history.getLast? <;> simp [hh, hl]
      | cons b bs => simp

/-- Witness for claim C7: a FUND quote written at time 0 into an empty cache
is still served at time 86399. -/
theorem claim_C7_witness :
    (get_quote (set_quote ⟨[], [], 300, 500⟩ "VESAF" "FUND"
        { symbol := some "VESAF", close := some 25000 } none 0) "VESAF" "FUND"
        86399).1
      = some { symbol := some "VESAF", close := some 25000 } :=
  (claim_C7_quote_ttl_boundaries ⟨[], [], 300, 500⟩ "VESAF"
      { symbol := some "VESAF", close := some 25000 } 0 86399).1.1
    (by norm_num) (by norm_num)

/-- Claim C8: degraded quote fallback.  When the memory and persistent quote
caches miss, the provider quote call fails (or returns empty), and the store
holds a non-placeholder record for the symbol within the last 30 days,
`get_latest_quote` returns the most recent such record as the quote, caches
it in the memory quote cache and the persistent quote cache with the STOCK
TTL (3 600 s), leaves the store unchanged, and performs exactly one provider
invocation; in particular the failed FPT quote with a record dated 2025-09-26
(today 2025-10-03) returns that record. -/
theorem claim_C8_quote_degraded_fallback :
    (∀ (mem : MemoryCache) (pc : PersCache) (s : Store)
       (pr : Option (List ProviderBar))
       (hf : Store → List RawRecord × Store × ℕ)
       (symbol : String) (today : ℕ) (now : ℚ) (rec : RawRecord),
      (get_quote mem symbol "STOCK" now).1 = none →
      pers_get_quote pc symbol "STOCK" now = none →
      (pr = none ∨ pr = some []) →
      get_most_recent_record s symbol "STOCK" 30 today = some rec →
      (get_latest_quote mem pc s pr hf symbol today now).1 = some rec
      ∧ assocGet (get_latest_quote mem pc s pr hf symbol today now).2.1.cache
          (quoteKey symbol "STOCK") = some ⟨rec, now, now⟩
      ∧ assocGet (get_latest_quote mem pc s pr hf symbol today now).2.1.ttl
          (quoteKey symbol "STOCK") = some (now + 3600)
      ∧ assocGet (get_latest_quote mem pc s pr hf symbol today now).2.2.1
          (symbol, "STOCK") = some (rec, now + 3600)
      ∧ (get_latest_quote mem pc s pr hf symbol today now).2.2.2.1 = s
      ∧ (get_latest_quote mem pc s pr hf symbol today now).2.2.2.2 = 1)
    ∧ (get_latest_quote ⟨[], [], 300, 500⟩ [] fptStore none
        (fun s => ([], s, 0)) "FPT" (daysFromCivil 2025 10 3) 0).1
        = some fptRecord := by
  have hstock : (get_ttl_for_asset "STOCK" : ℚ) = 3600 := by
    have : get_ttl_for_asset "STOCK" = 3600 := by decide
    rw [this]
    norm_num
  constructor
  · intro mem pc s pr hf symbol today now rec hmem hpers hpr hmr
    have hpair : get_quote mem symbol "STOCK" now
        = (none, (get_quote mem symbol "STOCK" now).2) := by
      rw [← hmem]
    have hres : get_latest_quote mem pc s pr hf symbol today now
        = (some rec,
           set_quote (get_quote mem symbol "STOCK" now).2 symbol "STOCK" rec none now,
           pers_set_quote pc symbol "STOCK" rec (get_ttl_for_asset "STOCK") now,
           s, 1) := by
      unfold get_latest_quote
      rw [hpair, hpers]
      rcases hpr with rfl | rfl
      · simp only [hmr]
      · simp only [hmr]
    rw [hres]
    refine ⟨rfl, ?_, ?_, ?_, rfl, rfl⟩
    · exact set_quote_cache_lookup _ _ _ _ _ _
    · rw [set_quote_ttl_lookup, hstock]
    · unfold pers_set_quote
      rw [assocGet_set_self, hstock]
  · decide

/-- Witness for claim C8: the general statement applied to the concrete FPT
fixture (empty caches, failed provider call, record dated 2025-09-26,
today 2025-10-03). -/
theorem claim_C8_witness :
    (get_latest_quote ⟨[], [], 300, 500⟩ [] fptStore none
        (fun s => ([], s, 0)) "FPT" (daysFromCivil 2025 10 3) 0).2.2.2.2 = 1 :=
  (claim_C8_quote_degraded_fallback.1 ⟨[], [], 300, 500⟩ [] fptStore none
      (fun s => ([], s, 0)) "FPT" (daysFromCivil 2025 10 3) 0 fptRecord
      (by decide) (by decide) (Or.inl rfl) (by decide)).2.2.2.2.2

/-- Claim C9 (code bug): the history endpoints do return HTTP 400 for a
malformed start or end date, but they perform no future-date check at all —
with today = 2025-10-03, an end date of 2025-12-31 passes validation and the
endpoint proceeds to the client call, while the repository's own
`validate_and_set_dates` helper (which no endpoint calls) rejects the same
input with 400, and even a start date past today is let through. -/
theorem claim_C9_history_date_validation :
    (∀ (today : ℕ) (sp : DateParam),
      endpoint_validate_dates today sp .malformed = .error 400)
    ∧ (∀ (today : ℕ) (ep : DateParam),
      endpoint_validate_dates today .malformed ep = .error 400)
    ∧ endpoint_validate_dates (daysFromCivil 2025 10 3) .missing
        (.valid (daysFromCivil 2025 12 31))
      = .ok (daysFromCivil 2025 10 3 - 365, daysFromCivil 2025 12 31)
    ∧ validate_and_set_dates (daysFromCivil 2025 10 3) .missing
        (.valid (daysFromCivil 2025 12 31)) false
      = .error 400 := by
  refine ⟨?_, ?_, rfl, rfl⟩
  · intro today sp
    cases sp <;> rfl
  · intro today ep
    cases ep <;> rfl

lemma assocSet_of_not_mem {κ α : Type} [DecidableEq κ] {l : List (κ × α)} {k : κ}
    (h : ∀ p ∈ l, p.1 ≠ k) (v : α) : assocSet l k v = l ++ [(k, v)] := by
  have hneg : ¬ ((l.any fun p => decide (p.1 = k)) = true) := by
    rw [List.any_eq_true]
    rintro ⟨p, hp, hpk⟩
    exact h p hp (by simpa using hpk)
  unfold assocSet
  rw [if_neg hneg]

lemma assocSet_of_mem {κ α : Type} [DecidableEq κ] {l : List (κ × α)} {k : κ}
    (h : ∃ p ∈ l, p.1 = k) (v : α) :
    assocSet l k v = l.map (fun p => if p.1 = k then (k, v) else p) := by
  have hpos : (l.any fun p => decide (p.1 = k)) = true := by
    rw [List.any_eq_true]
    obtain ⟨p, hp, hpk⟩ := h
    exact ⟨p, hp, by simpa using hpk⟩
  unfold assocSet
  rw [if_pos hpos]

lemma store_fold_lookup (symbol assetType : String) :
    ∀ (recs : List RawRecord) (s : Store) (n : ℕ) (sym at_ : String) (d : ℕ),
      (recs.foldl
        (fun acc rec =>
          match rec.date with
          | none => acc
          | some dd => (upsertRow acc.1 symbol assetType dd (rowOfRecord rec),
                        acc.2 + 1))
        (s, n)).1 sym at_ d
      = if sym = symbol ∧ at_ = assetType then
          match recs.reverse.find? (fun r => r.date = some d) with
          | some rec => some (rowOfRecord rec)
          | none => s sym at_ d
        else s sym at_ d := by
  intro recs
  induction recs with
  | nil =>
    intro s n sym at_ d
    simp only [List.foldl_nil, List.reverse_nil, List.find?_nil]
    split <;> rfl
  | cons rec rest ih =>
    intro s n sym at_ d
    rw [List.foldl_cons]
    cases hdate : rec.date with
    | none =>
      simp only [hdate]
      rw [ih]
      have hfind : (rec :: rest).reverse.find? (fun r => r.date = some d)
          = rest.reverse.find? (fun r => r.date = some d) := by
        rw [List.reverse_cons, List.find?_append]
        have : [rec].find? (fun r => r.date = some d) = none := by
          simp [List.find?, hdate]
        rw [this, Option.or_none]
      rw [hfind]
    | some dr =>
      simp only [hdate]
      rw [ih]
      rw [List.reverse_cons, List.find?_append]
      by_cases hkey : sym = symbol ∧ at_ = assetType
      · rw [if_pos hkey, if_pos hkey]
        cases hrest : rest.reverse.find? (fun r => r.date = some d) with
        | some rr => simp [Option.or]
        | none =>
          simp only [Option.none_or]
          by_cases hd : dr = d
          · have : [rec].find? (fun r => r.date = some d) = some rec := by
              simp [List.find?, hdate, hd]
            rw [this]
            unfold upsertRow
            rw [if_pos ⟨hkey.1, hkey.2, hd.symm⟩]
          · have : [rec].find? (fun r => r.date = some d) = none := by
              simp [List.find?, hdate, hd]
            rw [this]
            unfold upsertRow
            rw [if_neg (fun hc => hd hc.2.2.symm)]
      · rw [if_neg hkey, if_neg hkey]
        unfold upsertRow
        rw [if_neg (fun hc => hkey ⟨hc.1, hc.2.1⟩)]

lemma store_records_lookup (s : Store) (symbol assetType : String)
    (recs : List RawRecord) (sym at_ : String) (d : ℕ) :
    (store_historical_records s symbol assetType recs).1 sym at_ d
      = if sym = symbol ∧ at_ = assetType then
          match recs.reverse.find? (fun r => r.date = some d) with
          | some rec => some (rowOfRecord rec)
          | none => s sym at_ d
        else s sym at_ d :=
  store_fold_lookup symbol assetType recs s 0 sym at_ d

lemma foldl_mergeStep_build :
    ∀ (cached : List RawRecord) (acc : List (ℕ × RawRecord)),
      (∀ c ∈ cached, c.date.isSome = true) →
      List.Pairwise (· ≠ ·)
        (acc.map (fun p => p.1) ++ cached.filterMap RawRecord.date) →
      cached.foldl mergeStep acc
        = acc ++ cached.map (fun c => (c.date.getD 0, c)) := by
  intro cached
  induction cached with
  | nil => intro acc _ _; simp
  | cons c rest ih =>
    intro acc hdates hpw
    obtain ⟨d, hd⟩ := Option.isSome_iff_exists.mp (hdates c (List.mem_cons_self c rest))
    rw [List.foldl_cons]
    have hstep : mergeStep acc c = acc ++ [(d, c)] := by
      unfold mergeStep
      rw [hd]
      apply assocSet_of_not_mem
      intro p hp
      have hmem : p.1 ∈ acc.map (fun p => p.1) := List.mem_map_of_mem _ hp
      have hdfm : d ∈ (c :: rest).filterMap RawRecord.date := by
        rw [List.filterMap_cons, hd]
        exact List.mem_cons_self _ _
      have := (List.pairwise_append.mp hpw).2.2 p.1 hmem d hdfm
      exact this
    rw [hstep]
    have hrest : rest.foldl mergeStep (acc ++ [(d, c)])
        = (acc ++ [(d, c)]) ++ rest.map (fun c => (c.date.getD 0, c)) := by
      apply ih
      · intro x hx
        exact hdates x (List.mem_cons_of_mem c hx)
      · have : (acc ++ [(d, c)]).map (fun p => p.1) ++ rest.filterMap RawRecord.date
            = acc.map (fun p => p.1) ++ ([d] ++ rest.filterMap RawRecord.date) := by
          simp
        rw [this]
        have hsrc : acc.map (fun p => p.1) ++ (c :: rest).filterMap RawRecord.date
            = acc.map (fun p => p.1) ++ ([d] ++ rest.filterMap RawRecord.date) := by
          rw [List.filterMap_cons, hd]
          rfl
        rw [← hsrc]
        exact hpw
    rw [hrest]
    simp [hd]

lemma foldl_mergeStep_update :
    ∀ (new : List RawRecord) (P : List (ℕ × RawRecord)),
      (∀ r ∈ new, ∃ d, r.date = some d ∧ d ∈ P.map (fun p => p.1)) →
      new.foldl mergeStep P
        = P.map (fun p =>
            match new.reverse.find? (fun r => r.date = some p.1) with
            | some r => (p.1, r)
            | none => p) := by
  intro new
  induction new with
  | nil =>
    intro P _
    simp
  | cons r rest ih =>
    intro P hnew
    obtain ⟨d, hd, hdk⟩ := hnew r (List.mem_cons_self r rest)
    rw [List.foldl_cons]
    have hstep : mergeStep P r = P.map (fun p => if p.1 = d then (d, r) else p) := by
      unfold mergeStep
      rw [hd]
      apply assocSet_of_mem
      obtain ⟨p, hp, hpd⟩ := List.mem_map.mp hdk
      exact ⟨p, hp, hpd⟩
    rw [hstep]
    have hkeys : (P.map (fun p => if p.1 = d then (d, r) else p)).map (fun p => p.1)
        = P.map (fun p => p.1) := by
      rw [List.map_map]
      apply List.map_congr_left
      intro p _
      by_cases h : p.1 = d
      · simp [h]
      · simp [h]
    rw [ih (P.map (fun p => if p.1 = d then (d, r) else p)) ?hnewrest]
    case hnewrest =>
      intro x hx
      obtain ⟨dx, hdx, hdxk⟩ := hnew x (List.mem_cons_of_mem r hx)
      exact ⟨dx, hdx, by rw [hkeys]; exact hdxk⟩
    rw [List.map_map]
    apply List.map_congr_left
    intro p _
    simp only [Function.comp]
    rw [List.reverse_cons, List.find?_append]
    by_cases hpd : p.1 = d
    · simp only [if_pos hpd]
      cases hrest : rest.reverse.find? (fun rr => rr.date = some d) with
      | some rr =>
          have hrest2 : rest.reverse.find? (fun rr => rr.date = some p.1) = some rr := by
            rw [hpd]; exact hrest
          rw [hrest2]
          simp [Option.or, hpd]
      | none =>
          have hrest2 : rest.reverse.find? (fun rr => rr.date = some p.1) = none := by
            rw [hpd]; exact hrest
          rw [hrest2]
          have hr1 : [r].find? (fun rr => rr.date = some p.1) = some r := by
            simp [List.find?, hd, hpd]
          rw [hr1]
          simp [Option.or, hpd]
    · simp only [if_neg hpd]
      cases hrest : rest.reverse.find? (fun rr => rr.date = some p.1) with
      | some rr => simp [Option.or]
      | none =>
          have hr1 : [r].find? (fun rr => rr.date = some p.1) = none := by
            simp only [List.find?]
            have : (r.date = some p.1) = False := by
              simp [hd]
              intro hc
              exact hpd hc.symm
            simp [this]
          rw [hr1]
          simp [Option.or]

lemma filterMap_date_eq_map (cached : List RawRecord)
    (hdates : ∀ c ∈ cached, c.date.isSome = true) :
    cached.filterMap RawRecord.date = cached.map (fun c => c.date.getD 0) := by
  induction cached with
  | nil => rfl
  | cons c rest ih =>
    obtain ⟨d, hd⟩ := Option.isSome_iff_exists.mp (hdates c (List.mem_cons_self c rest))
    rw [List.filterMap_cons, hd, List.map_cons, hd]
    rw [ih (fun x hx => hdates x (List.mem_cons_of_mem c hx))]
    rfl

/-- `merge_historical_data` when the cached list is date-sorted with all
dates present and every new record's date already occurs among the cached
dates: the result is the cached list with each entry overridden by the last
new record sharing its date. -/
lemma merge_eq_override (cached new : List RawRecord)
    (hdates : ∀ c ∈ cached, c.date.isSome = true)
    (hsorted : List.Pairwise
      (fun u v : RawRecord => u.date.getD 0 < v.date.getD 0) cached)
    (hnew : ∀ r ∈ new, ∃ d, r.date = some d ∧
      d ∈ cached.map (fun c => c.date.getD 0)) :
    merge_historical_data cached new
      = cached.map (fun c =>
          match new.reverse.find? (fun r => r.date = c.date) with
          | some r => r
          | none => c) := by
  have hkeysP : (cached.map (fun c => (c.date.getD 0, c))).map (fun p => p.1)
      = cached.map (fun c => c.date.getD 0) := by
    rw [List.map_map]
    rfl
  have hkeyslt : List.Pairwise (· < ·) (cached.map (fun c => c.date.getD 0)) :=
    List.pairwise_map.mpr hsorted
  have hbuild : cached.foldl mergeStep [] =
      cached.map (fun c => (c.date.getD 0, c)) := by
    have := foldl_mergeStep_build cached [] hdates (by
      rw [List.map_nil, List.nil_append, filterMap_date_eq_map cached hdates]
      exact hkeyslt.imp (fun h => Nat.ne_of_lt h))
    simpa using this
  have hupdate := foldl_mergeStep_update new
    (cached.map (fun c => (c.date.getD 0, c)))
    (by intro r hr; obtain ⟨d, hd, hdk⟩ := hnew r hr; exact ⟨d, hd, by rw [hkeysP]; exact hdk⟩)
  have hfold : (cached ++ new).foldl mergeStep []
      = (cached.map (fun c => (c.date.getD 0, c))).map
          (fun p =>
            match new.reverse.find? (fun r => r.date = some p.1) with
            | some r => (p.1, r)
            | none => p) := by
    rw [List.foldl_append, hbuild, hupdate]
  have hpairsfst : ∀ (p : ℕ × RawRecord),
      (match new.reverse.find? (fun r : RawRecord => r.date = some p.1) with
        | some r => (p.1, r)
        | none => p).1 = p.1 := by
    intro p
    cases h : new.reverse.find? (fun r : RawRecord => r.date = some p.1) <;>
      simp [h]
  have hsortedF : List.Pairwise
      (fun p q : ℕ × RawRecord => (decide (p.1 ≤ q.1)) = true)
      (((cached.map (fun c => (c.date.getD 0, c))).map
        (fun p =>
          match new.reverse.find? (fun r => r.date = some p.1) with
          | some r => (p.1, r)
          | none => p))) := by
    rw [List.pairwise_map, List.pairwise_map]
    apply List.Pairwise.imp ?impl hsorted
    case impl =>
      intro u v huv
      rw [hpairsfst, hpairsfst]
      simp only [decide_eq_true_eq]
      exact Nat.le_of_lt huv
  unfold merge_historical_data
  rw [hfold, List.mergeSort_of_sorted hsortedF, List.map_map, List.map_map]
  apply List.map_congr_left
  intro c hc
  obtain ⟨d, hd⟩ := Option.isSome_iff_exists.mp (hdates c hc)
  simp only [Function.comp, hd, Option.getD_some]
  cases hf : new.reverse.find? (fun r : RawRecord => r.date = some d) <;>
    simp [hf]

lemma get_cached_records_pairwise (s : Store) (symbol assetType : String)
    (a b : ℕ) :
    List.Pairwise (fun u v : RawRecord => u.date.getD 0 < v.date.getD 0)
      (get_cached_records s symbol assetType a b) := by
  unfold get_cached_records
  rw [List.pairwise_filterMap]
  refine List.Pairwise.imp ?_ (List.pairwise_lt_range' a (b + 1 - a))
  intro d1 d2 hlt r1 h1 r2 h2
  rw [get_cached_records_entry_date h1, get_cached_records_entry_date h2]
  simpa using hlt

lemma get_cached_records_date_isSome {s : Store} {symbol assetType : String}
    {a b : ℕ} :
    ∀ c ∈ get_cached_records s symbol assetType a b, c.date.isSome = true := by
  intro c hc
  obtain ⟨d, row, -, -, -, -, rfl⟩ := mem_get_cached_records.mp hc
  rfl

lemma normalizeRecord_normalizeRow (d : ℕ) (row : Row) :
    normalizeRecord (normalizeRow d row) = normalizeRow d row := rfl

lemma normalizeRecord_of_cached {s : Store} {symbol assetType : String}
    {a b : ℕ} {c : RawRecord}
    (hc : c ∈ get_cached_records s symbol assetType a b) :
    normalizeRecord c = c := by
  obtain ⟨d, row, -, -, -, -, rfl⟩ := mem_get_cached_records.mp hc
  rfl

/-- Invariant of the per-range fetch loop: the `all_new_records` accumulator
and the store stay aligned (the last accumulated record for a date is exactly
the stored row), untouched dates keep their original row, the invocation
counter counts ranges, and every accumulated record comes from the original
accumulator or from the provider response of one of the ranges. -/
lemma fetch_fold_invariant (provider : ℕ → ℕ → List RawRecord) (symbol : String)
    (s0 : Store) :
    ∀ (RS : List (ℕ × ℕ)) (st : Store) (acc : List RawRecord) (k : ℕ),
      (∀ (d : ℕ) (rec : RawRecord),
        acc.reverse.find? (fun r => r.date = some d) = some rec →
        st symbol "STOCK" d = some (rowOfRecord rec)) →
      (∀ d : ℕ, acc.reverse.find? (fun r => r.date = some d) = none →
        st symbol "STOCK" d = s0 symbol "STOCK" d) →
      (∀ (d : ℕ) (rec : RawRecord),
        (RS.foldl (fetchRangesStep provider symbol) (st, acc, k)).2.1.reverse.find?
            (fun r => r.date = some d) = some rec →
        (RS.foldl (fetchRangesStep provider symbol) (st, acc, k)).1 symbol "STOCK" d
          = some (rowOfRecord rec))
      ∧ (∀ d : ℕ,
        (RS.foldl (fetchRangesStep provider symbol) (st, acc, k)).2.1.reverse.find?
            (fun r => r.date = some d) = none →
        (RS.foldl (fetchRangesStep provider symbol) (st, acc, k)).1 symbol "STOCK" d
          = s0 symbol "STOCK" d)
      ∧ (RS.foldl (fetchRangesStep provider symbol) (st, acc, k)).2.2 = k + RS.length
      ∧ (∀ rec ∈ (RS.foldl (fetchRangesStep provider symbol) (st, acc, k)).2.1,
          rec ∈ acc ∨ ∃ r ∈ RS, rec ∈ provider r.1 r.2) := by
  intro RS
  induction RS with
  | nil =>
    intro st acc k h1 h2
    exact ⟨h1, h2, rfl, fun rec hrec => Or.inl hrec⟩
  | cons r rest ih =>
    intro st acc k h1 h2
    rw [List.foldl_cons]
    by_cases hnd : provider r.1 r.2 = []
    · have hstep : fetchRangesStep provider symbol (st, acc, k) r = (st, acc, k + 1) := by
        unfold fetchRangesStep
        rw [if_pos hnd]
      rw [hstep]
      obtain ⟨g1, g2, g3, g4⟩ := ih st acc (k + 1) h1 h2
      refine ⟨g1, g2, by rw [g3]; simp [List.length_cons]; omega, ?_⟩
      intro rec hrec
      rcases g4 rec hrec with h | ⟨rr, hrr, hmem⟩
      · exact Or.inl h
      · exact Or.inr ⟨rr, List.mem_cons_of_mem r hrr, hmem⟩
    · have hstep : fetchRangesStep provider symbol (st, acc, k) r
          = ((store_historical_records st symbol "STOCK" (provider r.1 r.2)).1,
             acc ++ provider r.1 r.2, k + 1) := by
        unfold fetchRangesStep
        rw [if_neg hnd]
      rw [hstep]
      have h1' : ∀ (d : ℕ) (rec : RawRecord),
          (acc ++ provider r.1 r.2).reverse.find? (fun x => x.date = some d) = some rec →
          (store_historical_records st symbol "STOCK" (provider r.1 r.2)).1
            symbol "STOCK" d = some (rowOfRecord rec) := by
        intro d rec hfind
        rw [List.reverse_append, List.find?_append] at hfind
        rw [store_records_lookup, if_pos ⟨rfl, rfl⟩]
        cases hnewf : (provider r.1 r.2).reverse.find? (fun x => x.date = some d) with
        | some rr =>
            rw [hnewf] at hfind
            simp only [Option.or] at hfind
            cases hfind
            rfl
        | none =>
            rw [hnewf] at hfind
            simp only [Option.none_or] at hfind
            exact h1 d rec hfind
      have h2' : ∀ d : ℕ,
          (acc ++ provider r.1 r.2).reverse.find? (fun x => x.date = some d) = none →
          (store_historical_records st symbol "STOCK" (provider r.1 r.2)).1
            symbol "STOCK" d = s0 symbol "STOCK" d := by
        intro d hfind
        rw [List.reverse_append, List.find?_append] at hfind
        cases hnewf : (provider r.1 r.2).reverse.find? (fun x => x.date = some d) with
        | some rr =>
            rw [hnewf] at hfind
            simp [Option.or] at hfind
        | none =>
            rw [hnewf] at hfind
            simp only [Option.none_or] at hfind
            rw [store_records_lookup, if_pos ⟨rfl, rfl⟩, hnewf]
            exact h2 d hfind
      obtain ⟨g1, g2, g3, g4⟩ := ih _ _ (k + 1) h1' h2'
      refine ⟨g1, g2, by rw [g3]; simp [List.length_cons]; omega, ?_⟩
      intro rec hrec
      rcases g4 rec hrec with h | ⟨rr, hrr, hmem⟩
      · rcases List.mem_append.mp h with h | h
        · exact Or.inl h
        · exact Or.inr ⟨r, List.mem_cons_self r rest, h⟩
      · exact Or.inr ⟨rr, List.mem_cons_of_mem r hrr, hmem⟩

/-- When the provider returns nothing for every range, the fetch loop leaves
the store and the accumulator unchanged and only counts invocations. -/
lemma fetch_fold_empty (provider : ℕ → ℕ → List RawRecord) (symbol : String) :
    ∀ (RS : List (ℕ × ℕ)) (st : Store) (acc : List RawRecord) (k : ℕ),
      (∀ r ∈ RS, provider r.1 r.2 = []) →
      RS.foldl (fetchRangesStep provider symbol) (st, acc, k)
        = (st, acc, k + RS.length) := by
  intro RS
  induction RS with
  | nil => intro st acc k _; rfl
  | cons r rest ih =>
    intro st acc k hall
    rw [List.foldl_cons]
    have hstep : fetchRangesStep provider symbol (st, acc, k) r = (st, acc, k + 1) := by
      unfold fetchRangesStep
      rw [if_pos (hall r (List.mem_cons_self r rest))]
    rw [hstep, ih st acc (k + 1) (fun x hx => hall x (List.mem_cons_of_mem r hx))]
    simp [List.length_cons]
    omega

/-- Everything the per-range loop fetched — and everything already
accumulated — ends up in `all_new_records`. -/
lemma fetch_fold_acc_superset (provider : ℕ → ℕ → List RawRecord)
    (symbol : String) :
    ∀ (RS : List (ℕ × ℕ)) (st : Store) (acc : List RawRecord) (k : ℕ),
      (∀ rec ∈ acc,
        rec ∈ (RS.foldl (fetchRangesStep provider symbol) (st, acc, k)).2.1)
      ∧ (∀ r ∈ RS, ∀ rec ∈ provider r.1 r.2,
        rec ∈ (RS.foldl (fetchRangesStep provider symbol) (st, acc, k)).2.1) := by
  intro RS
  induction RS with
  | nil =>
    intro st acc k
    exact ⟨fun rec h => h, fun r hr => absurd hr (List.not_mem_nil r)⟩
  | cons r rest ih =>
    intro st acc k
    rw [List.foldl_cons]
    by_cases hnd : provider r.1 r.2 = []
    · have hstep : fetchRangesStep provider symbol (st, acc, k) r = (st, acc, k + 1) := by
        unfold fetchRangesStep
        rw [if_pos hnd]
      rw [hstep]
      obtain ⟨g5, g6⟩ := ih st acc (k + 1)
      refine ⟨g5, ?_⟩
      intro x hx rec hrec
      rcases List.mem_cons.mp hx with rfl | hx
      · rw [hnd] at hrec
        cases hrec
      · exact g6 x hx rec hrec
    · have hstep : fetchRangesStep provider symbol (st, acc, k) r
          = ((store_historical_records st symbol "STOCK" (provider r.1 r.2)).1,
             acc ++ provider r.1 r.2, k + 1) := by
        unfold fetchRangesStep
        rw [if_neg hnd]
      rw [hstep]
      obtain ⟨g5, g6⟩ := ih
        (store_historical_records st symbol "STOCK" (provider r.1 r.2)).1
        (acc ++ provider r.1 r.2) (k + 1)
      refine ⟨?_, ?_⟩
      · intro rec hrec
        exact g5 rec (List.mem_append.mpr (Or.inl hrec))
      · intro x hx rec hrec
        rcases List.mem_cons.mp hx with rfl | hx
        · exact g5 rec (List.mem_append.mpr (Or.inr hrec))
        · exact g6 x hx rec hrec

/-- The planner returns no range exactly when every date of `[a, b]` is
cached. -/
lemma calculate_missing_date_ranges_eq_nil {a b : ℕ} {cached : List ℕ}
    (h : ∀ d ∈ dateRange a b, d ∈ cached) :
    calculate_missing_date_ranges a b cached = [] := by
  unfold calculate_missing_date_ranges
  have : (dateRange a b).filter (fun d => d ∉ cached) = [] := by
    rw [List.filter_eq_nil_iff]
    intro d hd
    simpa using h d hd
  rw [this]

lemma mem_get_cached_dates {s : Store} {symbol assetType : String} {a b d : ℕ} :
    d ∈ get_cached_dates s symbol assetType a b
      ↔ d ∈ dateRange a b ∧ (s symbol assetType d).isSome = true := by
  unfold get_cached_dates
  rw [List.mem_filter]

/-- Claim C4 fails as literally stated: the record LIST of the first call is
not equal to that of the second.  In the VNM fixture the first call returns
the raw provider dict (with a `symbol` key, without `buy_price`/`sell_price`
keys) because `merge_historical_data` lets the fresh response win, while the
second call — now a full cache hit — returns the stored row as normalized by
`get_cached_records` (no `symbol` key, `buy_price`/`sell_price` defaulted
to 0). -/
theorem claim_C4_counterexample :
    (get_stock_history_incremental (pointwiseProvider vnmPerDate)
        (get_stock_history_incremental (pointwiseProvider vnmPerDate)
          emptyStore "VNM" vnmDay vnmDay).2.1
        "VNM" vnmDay vnmDay).1
      ≠ (get_stock_history_incremental (pointwiseProvider vnmPerDate)
          emptyStore "VNM" vnmDay vnmDay).1 := by
  have hprov : pointwiseProvider vnmPerDate vnmDay vnmDay = [vnmRec] := by
    simp [pointwiseProvider, dateRange_self, vnmPerDate]
  have hcd0 : get_cached_dates emptyStore "VNM" "STOCK" vnmDay vnmDay = [] := by
    simp [get_cached_dates, dateRange_self, emptyStore]
  have hmr0 : calculate_missing_date_ranges vnmDay vnmDay []
      = [(vnmDay, vnmDay)] := by
    simp [calculate_missing_date_ranges, dateRange_self, coalesceRanges]
  have hstore : store_historical_records emptyStore "VNM" "STOCK" [vnmRec]
      = (vnmStore1, 1) := by
    simp [store_historical_records, vnmStore1, show vnmRec.date = some vnmDay from rfl]
  have hfold : List.foldl (fetchRangesStep (pointwiseProvider vnmPerDate) "VNM")
      (emptyStore, ([] : List RawRecord), 0) [(vnmDay, vnmDay)]
      = (vnmStore1, [vnmRec], 1) := by
    rw [List.foldl_cons, List.foldl_nil]
    unfold fetchRangesStep
    simp [hprov, hstore]
  have hC1 : get_cached_records vnmStore1 "VNM" "STOCK" vnmDay vnmDay
      = [normalizeRow vnmDay (rowOfRecord vnmRec)] := by decide
  have hfoldpairs :
      ([normalizeRow vnmDay (rowOfRecord vnmRec)] ++ [vnmRec]).foldl mergeStep []
        = [(vnmDay, vnmRec)] := by decide
  have hmerge1 : merge_historical_data
      [normalizeRow vnmDay (rowOfRecord vnmRec)] [vnmRec] = [vnmRec] := by
    unfold merge_historical_data
    rw [hfoldpairs, List.mergeSort_singleton]
    rfl
  have hfirst : get_stock_history_incremental (pointwiseProvider vnmPerDate)
      emptyStore "VNM" vnmDay vnmDay = ([vnmRec], vnmStore1, 1) := by
    simp only [get_stock_history_incremental, hcd0, hmr0]
    rw [if_neg (List.cons_ne_nil _ _), hfold]
    simp only [hC1, hmerge1]
  have hcd1 : get_cached_dates vnmStore1 "VNM" "STOCK" vnmDay vnmDay
      = [vnmDay] := by decide
  have hmr1 : calculate_missing_date_ranges vnmDay vnmDay [vnmDay] = [] := by
    decide
  have hsecond : get_stock_history_incremental (pointwiseProvider vnmPerDate)
      vnmStore1 "VNM" vnmDay vnmDay
      = ([normalizeRow vnmDay (rowOfRecord vnmRec)], vnmStore1, 0) := by
    simp only [get_stock_history_incremental, hcd1, hmr1]
    rw [if_pos trivial, hC1]
  have h21 : (get_stock_history_incremental (pointwiseProvider vnmPerDate)
      emptyStore "VNM" vnmDay vnmDay).2.1 = vnmStore1 := by rw [hfirst]
  have h1 : (get_stock_history_incremental (pointwiseProvider vnmPerDate)
      emptyStore "VNM" vnmDay vnmDay).1 = [vnmRec] := by rw [hfirst]
  rw [h21, h1, hsecond]
  decide

/-- Claim C4 (amended): with an unchanged pointwise provider whose records
carry their date and pass the realness filter, and no time passing, the
second incremental history call returns exactly the first call's records up
to the store's read normalization (`normalizeRecord`: `symbol` dropped,
missing numeric fields defaulted — the record SETS agree on every price
field), the store is unchanged by the second call, and when the first call
achieved full coverage of `[a, b]` the second call performs zero provider
invocations.  (The original claim's literal record-list equality fails: the
first call returns raw provider dicts, the second returns normalized stored
rows — see the counterexample.) -/
theorem claim_C4_history_idempotence
    (perDate : ℕ → List RawRecord) (s0 : Store) (symbol : String) (a b : ℕ)
    (Hdate : ∀ (d : ℕ), ∀ rec ∈ perDate d, rec.date = some d)
    (Hreal : ∀ (d : ℕ), ∀ rec ∈ perDate d, isRealRow (rowOfRecord rec) = true) :
    (get_stock_history_incremental (pointwiseProvider perDate)
        (get_stock_history_incremental (pointwiseProvider perDate)
          s0 symbol a b).2.1 symbol a b).1
      = ((get_stock_history_incremental (pointwiseProvider perDate)
          s0 symbol a b).1).map normalizeRecord
    ∧ (get_stock_history_incremental (pointwiseProvider perDate)
        (get_stock_history_incremental (pointwiseProvider perDate)
          s0 symbol a b).2.1 symbol a b).2.1
      = (get_stock_history_incremental (pointwiseProvider perDate)
          s0 symbol a b).2.1
    ∧ ((∀ d : ℕ, a ≤ d → d ≤ b →
          ((get_stock_history_incremental (pointwiseProvider perDate)
            s0 symbol a b).2.1 symbol "STOCK" d).isSome = true) →
        (get_stock_history_incremental (pointwiseProvider perDate)
          (get_stock_history_incremental (pointwiseProvider perDate)
            s0 symbol a b).2.1 symbol a b).2.2 = 0) := by
  by_cases hmr0 : calculate_missing_date_ranges a b
      (get_cached_dates s0 symbol "STOCK" a b) = []
  · -- the first call was already a full cache hit
    have hfirst : get_stock_history_incremental (pointwiseProvider perDate)
        s0 symbol a b = (get_cached_records s0 symbol "STOCK" a b, s0, 0) := by
      simp only [get_stock_history_incremental]
      rw [if_pos hmr0]
    have hfirst21 : (get_stock_history_incremental (pointwiseProvider perDate)
        s0 symbol a b).2.1 = s0 := by rw [hfirst]
    have hmapC0 : (get_cached_records s0 symbol "STOCK" a b).map normalizeRecord
        = get_cached_records s0 symbol "STOCK" a b := by
      conv_rhs => rw [← List.map_id (get_cached_records s0 symbol "STOCK" a b)]
      apply List.map_congr_left
      intro c hc
      exact normalizeRecord_of_cached hc
    refine ⟨?_, ?_, ?_⟩
    · rw [hfirst21, hfirst]
      exact hmapC0.symm
    · rw [hfirst21, hfirst]
    · intro _
      rw [hfirst21, hfirst]
  · -- the first call fetched at least one range
    set res := List.foldl
      (fetchRangesStep (pointwiseProvider perDate) symbol)
      (s0, ([] : List RawRecord), 0)
      (calculate_missing_date_ranges a b (get_cached_dates s0 symbol "STOCK" a b))
      with hres
    have hinv := fetch_fold_invariant (pointwiseProvider perDate) symbol s0
      (calculate_missing_date_ranges a b (get_cached_dates s0 symbol "STOCK" a b))
      s0 [] 0 (by intro d rec h; simp at h) (fun d _ => rfl)
    rw [← hres] at hinv
    obtain ⟨G1, G2, G3, G4⟩ := hinv
    have F1 : ∀ d : ℕ, res.1 symbol "STOCK" d = none →
        s0 symbol "STOCK" d = none := by
      intro d hd
      cases hf : res.2.1.reverse.find? (fun r => r.date = some d) with
      | some rec =>
        have := G1 d rec hf
        rw [hd] at this
        cases this
      | none =>
        rw [← G2 d hf]
        exact hd
    have F2 : ∀ rec ∈ res.2.1, ∃ d : ℕ, rec.date = some d ∧ rec ∈ perDate d ∧
        d ∈ (dateRange a b).filter
          (fun x => x ∉ get_cached_dates s0 symbol "STOCK" a b) := by
      intro rec hrec
      rcases G4 rec hrec with h | ⟨r, hr, hmem⟩
      · exact absurd h (List.not_mem_nil rec)
      · have hmem' : rec ∈ (dateRange r.1 r.2).flatMap perDate := hmem
        obtain ⟨d, hd, hpd⟩ := List.mem_flatMap.mp hmem'
        refine ⟨d, Hdate d rec hpd, hpd, ?_⟩
        rw [← calculate_missing_date_ranges_covered a b
          (get_cached_dates s0 symbol "STOCK" a b)]
        exact List.mem_flatMap.mpr ⟨r, hr, hd⟩
    have hC1dates : ∀ c ∈ get_cached_records res.1 symbol "STOCK" a b,
        c.date.isSome = true := get_cached_records_date_isSome
    have hC1sorted := get_cached_records_pairwise res.1 symbol "STOCK" a b
    have hnewhyp : ∀ r ∈ res.2.1, ∃ d, r.date = some d ∧
        d ∈ (get_cached_records res.1 symbol "STOCK" a b).map
          (fun c => c.date.getD 0) := by
      intro rec hrec
      obtain ⟨d, hdate, hpd, hdmem⟩ := F2 rec hrec
      refine ⟨d, hdate, ?_⟩
      have hdab := mem_dateRange.mp (List.mem_filter.mp hdmem).1
      have hfindsome :
          (res.2.1.reverse.find? (fun r => r.date = some d)).isSome = true := by
        rw [List.find?_isSome]
        exact ⟨rec, List.mem_reverse.mpr hrec, by simp [hdate]⟩
      obtain ⟨rec', hrec'⟩ := Option.isSome_iff_exists.mp hfindsome
      have hst : res.1 symbol "STOCK" d = some (rowOfRecord rec') := G1 d rec' hrec'
      have hrec'mem : rec' ∈ res.2.1 :=
        List.mem_reverse.mp (List.mem_of_find?_eq_some hrec')
      have hrec'date : rec'.date = some d := by
        simpa using List.find?_some hrec'
      obtain ⟨d2, hd2date, hd2pd, -⟩ := F2 rec' hrec'mem
      rw [hrec'date] at hd2date
      injection hd2date with hd2
      subst hd2
      have hreal : isRealRow (rowOfRecord rec') = true := Hreal d rec' hd2pd
      exact List.mem_map.mpr ⟨normalizeRow d (rowOfRecord rec'),
        mem_get_cached_records.mpr
          ⟨d, rowOfRecord rec', hdab.1, hdab.2, hst, hreal, rfl⟩, rfl⟩
    have hmerge := merge_eq_override
      (get_cached_records res.1 symbol "STOCK" a b) res.2.1
      hC1dates hC1sorted hnewhyp
    have hmapfirst : (merge_historical_data
        (get_cached_records res.1 symbol "STOCK" a b) res.2.1).map normalizeRecord
        = get_cached_records res.1 symbol "STOCK" a b := by
      rw [hmerge, List.map_map]
      conv_rhs => rw [← List.map_id (get_cached_records res.1 symbol "STOCK" a b)]
      apply List.map_congr_left
      intro c hc
      obtain ⟨d, row, hda, hdb, hrow, hreal, rfl⟩ := mem_get_cached_records.mp hc
      have hcd : (normalizeRow d row).date = some d := rfl
      simp only [Function.comp_apply, id_eq, hcd]
      cases hf : res.2.1.reverse.find? (fun r => r.date = some d) with
      | none => exact normalizeRecord_normalizeRow d row
      | some rr =>
        have hst := G1 d rr hf
        have hrrdate : rr.date = some d := by
          simpa using List.find?_some hf
        rw [hrow] at hst
        have hroweq : rowOfRecord rr = row := by
          injection hst with h
          exact h.symm
        show normalizeRecord rr = normalizeRow d row
        unfold normalizeRecord
        rw [hrrdate, Option.getD_some, hroweq]
    have hfirst : get_stock_history_incremental (pointwiseProvider perDate)
        s0 symbol a b
        = (merge_historical_data
            (get_cached_records res.1 symbol "STOCK" a b) res.2.1,
           res.1, res.2.2) := by
      simp only [get_stock_history_incremental]
      rw [if_neg hmr0, ← hres]
    have hfirst21 : (get_stock_history_incremental (pointwiseProvider perDate)
        s0 symbol a b).2.1 = res.1 := by rw [hfirst]
    have hfirst1 : (get_stock_history_incremental (pointwiseProvider perDate)
        s0 symbol a b).1
        = merge_historical_data
            (get_cached_records res.1 symbol "STOCK" a b) res.2.1 := by
      rw [hfirst]
    by_cases hmr1 : calculate_missing_date_ranges a b
        (get_cached_dates res.1 symbol "STOCK" a b) = []
    · -- the second call is a full cache hit
      have hsecond : get_stock_history_incremental (pointwiseProvider perDate)
          res.1 symbol a b
          = (get_cached_records res.1 symbol "STOCK" a b, res.1, 0) := by
        simp only [get_stock_history_incremental]
        rw [if_pos hmr1]
      refine ⟨?_, ?_, ?_⟩
      · rw [hfirst21, hfirst1, hsecond]
        exact hmapfirst.symm
      · rw [hfirst21, hsecond]
      · intro _
        rw [hfirst21, hsecond]
    · -- the second call still sees gaps: every one of its gap dates was
      -- already queried in vain, so every provider response is empty
      have hallempty : ∀ r ∈ calculate_missing_date_ranges a b
          (get_cached_dates res.1 symbol "STOCK" a b),
          pointwiseProvider perDate r.1 r.2 = [] := by
        intro r hr
        have hdempty : ∀ d ∈ dateRange r.1 r.2, perDate d = [] := by
          intro d hd
          have hdmem1 : d ∈ (dateRange a b).filter
              (fun x => x ∉ get_cached_dates res.1 symbol "STOCK" a b) := by
            rw [← calculate_missing_date_ranges_covered]
            exact List.mem_flatMap.mpr ⟨r, hr, hd⟩
          have hdab : d ∈ dateRange a b := (List.mem_filter.mp hdmem1).1
          have hdnot : d ∉ get_cached_dates res.1 symbol "STOCK" a b := by
            have := (List.mem_filter.mp hdmem1).2
            simpa using this
          have hs1none : res.1 symbol "STOCK" d = none := by
            cases hcase : res.1 symbol "STOCK" d with
            | none => rfl
            | some row =>
              exact absurd
                (mem_get_cached_dates.mpr ⟨hdab, by rw [hcase]; rfl⟩) hdnot
          have hs0none : s0 symbol "STOCK" d = none := F1 d hs1none
          by_contra hne
          obtain ⟨rec0, hrec0⟩ := List.exists_mem_of_ne_nil (perDate d) hne
          have hnotin0 : d ∉ get_cached_dates s0 symbol "STOCK" a b := by
            intro hmem
            have := (mem_get_cached_dates.mp hmem).2
            rw [hs0none] at this
            simp at this
          have hdm0 : d ∈ (calculate_missing_date_ranges a b
              (get_cached_dates s0 symbol "STOCK" a b)).flatMap rangeDates := by
            rw [calculate_missing_date_ranges_covered]
            exact List.mem_filter.mpr ⟨hdab, by simpa using hnotin0⟩
          obtain ⟨r0, hr0, hdr0⟩ := List.mem_flatMap.mp hdm0
          have hrec0prov : rec0 ∈ pointwiseProvider perDate r0.1 r0.2 :=
            List.mem_flatMap.mpr ⟨d, hdr0, hrec0⟩
          have hsup := (fetch_fold_acc_superset (pointwiseProvider perDate)
            symbol
            (calculate_missing_date_ranges a b
              (get_cached_dates s0 symbol "STOCK" a b)) s0 [] 0).2
          rw [← hres] at hsup
          have hrec0in : rec0 ∈ res.2.1 := hsup r0 hr0 rec0 hrec0prov
          have hfindsome :
              (res.2.1.reverse.find? (fun x => x.date = some d)).isSome = true := by
            rw [List.find?_isSome]
            exact ⟨rec0, List.mem_reverse.mpr hrec0in,
              by simp [Hdate d rec0 hrec0]⟩
          obtain ⟨rec', hrec'⟩ := Option.isSome_iff_exists.mp hfindsome
          have := G1 d rec' hrec'
          rw [hs1none] at this
          cases this
        show (dateRange r.1 r.2).flatMap perDate = []
        rw [List.flatMap_eq_nil_iff]
        exact hdempty
      have hmergenil : merge_historical_data
          (get_cached_records res.1 symbol "STOCK" a b) []
          = get_cached_records res.1 symbol "STOCK" a b := by
        rw [merge_eq_override _ [] hC1dates hC1sorted
          (by intro r hr; exact absurd hr (List.not_mem_nil r))]
        have hid : ∀ c ∈ get_cached_records res.1 symbol "STOCK" a b,
            (match ([] : List RawRecord).reverse.find?
                (fun r => r.date = c.date) with
              | some r => r
              | none => c) = id c := fun c _ => rfl
        rw [List.map_congr_left hid, List.map_id]
      have hsecond : get_stock_history_incremental (pointwiseProvider perDate)
          res.1 symbol a b
          = (get_cached_records res.1 symbol "STOCK" a b, res.1,
             0 + (calculate_missing_date_ranges a b
               (get_cached_dates res.1 symbol "STOCK" a b)).length) := by
        simp only [get_stock_history_incremental]
        rw [if_neg hmr1,
          fetch_fold_empty (pointwiseProvider perDate) symbol _ res.1 [] 0
            hallempty]
        rw [hmergenil]
      refine ⟨?_, ?_, ?_⟩
      · rw [hfirst21, hfirst1, hsecond]
        exact hmapfirst.symm
      · rw [hfirst21, hsecond]
      · -- full coverage contradicts a remaining gap
        intro hcov
        rw [hfirst21] at hcov
        exfalso
        apply hmr1
        apply calculate_missing_date_ranges_eq_nil
        intro d hd
        have hdab := mem_dateRange.mp hd
        exact mem_get_cached_dates.mpr ⟨hd, hcov d hdab.1 hdab.2⟩

/-- Witness for C4: the VNM fixture satisfies both provider hypotheses, and
the amended idempotence conclusion holds for it. -/
theorem claim_C4_witness :
    (∀ (d : ℕ), ∀ rec ∈ vnmPerDate d, rec.date = some d) ∧
    (∀ (d : ℕ), ∀ rec ∈ vnmPerDate d, isRealRow (rowOfRecord rec) = true) ∧
    ((get_stock_history_incremental (pointwiseProvider vnmPerDate)
        (get_stock_history_incremental (pointwiseProvider vnmPerDate)
          emptyStore "VNM" vnmDay vnmDay).2.1 "VNM" vnmDay vnmDay).1
      = ((get_stock_history_incremental (pointwiseProvider vnmPerDate)
          emptyStore "VNM" vnmDay vnmDay).1).map normalizeRecord
    ∧ (get_stock_history_incremental (pointwiseProvider vnmPerDate)
        (get_stock_history_incremental (pointwiseProvider vnmPerDate)
          emptyStore "VNM" vnmDay vnmDay).2.1 "VNM" vnmDay vnmDay).2.1
      = (get_stock_history_incremental (pointwiseProvider vnmPerDate)
          emptyStore "VNM" vnmDay vnmDay).2.1
    ∧ ((∀ d : ℕ, vnmDay ≤ d → d ≤ vnmDay →
          ((get_stock_history_incremental (pointwiseProvider vnmPerDate)
            emptyStore "VNM" vnmDay vnmDay).2.1 "VNM" "STOCK" d).isSome = true) →
        (get_stock_history_incremental (pointwiseProvider vnmPerDate)
          (get_stock_history_incremental (pointwiseProvider vnmPerDate)
            emptyStore "VNM" vnmDay vnmDay).2.1 "VNM" vnmDay vnmDay).2.2 = 0)) := by
  have Hdate : ∀ (d : ℕ), ∀ rec ∈ vnmPerDate d, rec.date = some d := by
    intro d rec h
    unfold vnmPerDate at h
    split at h
    · rename_i hd
      rcases List.mem_singleton.mp h with rfl
      subst hd
      rfl
    · cases h
  have Hreal : ∀ (d : ℕ), ∀ rec ∈ vnmPerDate d,
      isRealRow (rowOfRecord rec) = true := by
    intro d rec h
    unfold vnmPerDate at h
    split at h
    · rcases List.mem_singleton.mp h with rfl
      decide
    · cases h
  exact ⟨Hdate, Hreal,
    claim_C4_history_idempotence vnmPerDate emptyStore "VNM" vnmDay vnmDay
      Hdate Hreal⟩

end VnMarket
